import Mathlib

/-!
RingBuffer (include/RingBuffer.h)

A shallow embedding of the class template `RingBuffer<T>` and a verification of its
specification.

Conventions of the embedding

* `unsigned int` members (`head`, `count`, `BUF_SIZE`) are natural numbers; every
  arithmetic operation of the source on them is taken modulo `UINT_MODULUS = 2^32`.
* The heap array `buffer = new T[BUF_SIZE]` is a list of slots.  A slot is `none` until
  the first assignment to it and `some v` afterwards.
* An operation whose C++ execution has no defined result (remainder by zero, an access
  outside the allocated array, a read of a slot that was never assigned, leaving `cur`
  without a `return`) yields `none`.
-/

/-- Number of values of the C++ type `unsigned int`. -/
def UINT_MODULUS : Nat := 4294967296

/-- Largest value of the C++ type `int`, the type of the constructor argument `bufferSize`. -/
def INT_MAX : Int := 2147483647

/-- Private members of `RingBuffer<T>` (RingBuffer.h, lines 92-95). -/
structure RingBuffer (T : Type) where
  /-- Array of items of type T; `none` marks a slot that has not been assigned yet. -/
  buffer : List (Option T)
  /-- Current location in the buffer. -/
  head : Nat
  /-- Current number of items in the buffer. -/
  count : Nat
  /-- Static capacity of the buffer. -/
  BUF_SIZE : Nat
deriving DecidableEq, Repr

namespace RingBuffer

variable {T : Type}

/-- Member function `add` (RingBuffer.h, lines 117-127):
```
if(count > 0) head = (head+1) % BUF_SIZE;
buffer[head] = itemToBuffer;
if(count == head) count = std::min((count+1), BUF_SIZE);
```
-/
def add (b : RingBuffer T) (itemToBuffer : T) : Option (RingBuffer T) :=
  if 0 < b.count ∧ b.BUF_SIZE = 0 then none
  else
    let head := if 0 < b.count then ((b.head + 1) % UINT_MODULUS) % b.BUF_SIZE else b.head
    if head < b.buffer.length then
      let count :=
        if b.count = head then min ((b.count + 1) % UINT_MODULUS) b.BUF_SIZE else b.count
      some { buffer := b.buffer.set head (some itemToBuffer)
             head := head
             count := count
             BUF_SIZE := b.BUF_SIZE }
    else none

/-- Constructor `RingBuffer(itemToBuffer, bufferSize)` (RingBuffer.h, lines 99-108):
`BUF_SIZE` is initialised from the `int` argument (conversion to `unsigned int`), the
array is allocated, `head` and `count` are zeroed and the first item is added. -/
def construct (itemToBuffer : T) (bufferSize : Int) : Option (RingBuffer T) :=
  let size := (bufferSize % (UINT_MODULUS : Int)).toNat
  add { buffer := List.replicate size none, head := 0, count := 0, BUF_SIZE := size }
    itemToBuffer

/-- Member function `prev` (RingBuffer.h, lines 129-135):
```
head = head == 0 ? count - 1 : head - 1;
return buffer[head];
```
-/
def prev (b : RingBuffer T) : Option (T × RingBuffer T) :=
  let head :=
    if b.head = 0 then (b.count + UINT_MODULUS - 1) % UINT_MODULUS else b.head - 1
  match b.buffer[head]? with
  | some (some v) => some (v, { b with head := head })
  | _ => none

/-- Member function `next` (RingBuffer.h, lines 137-143):
```
head = head == count - 1 ? 0 : head + 1;
return buffer[head];
```
-/
def next (b : RingBuffer T) : Option (T × RingBuffer T) :=
  let head :=
    if b.head = (b.count + UINT_MODULUS - 1) % UINT_MODULUS then 0
    else (b.head + 1) % UINT_MODULUS
  match b.buffer[head]? with
  | some (some v) => some (v, { b with head := head })
  | _ => none

/-- Member function `cur` (RingBuffer.h, lines 145-151):
```
if(count > 0) return buffer[head];
```
-/
def cur (b : RingBuffer T) : Option T :=
  if 0 < b.count then
    match b.buffer[b.head]? with
    | some (some v) => some v
    | _ => none
  else none

/-- Member function `size` (RingBuffer.h, lines 153-158): `return BUF_SIZE;`, converted
from `unsigned int` to the return type `int`. -/
def size (b : RingBuffer T) : Int :=
  if b.BUF_SIZE < 2147483648 then (b.BUF_SIZE : Int) else (b.BUF_SIZE : Int) - 4294967296

/-- Member function `isEmpty` (RingBuffer.h, lines 160-165): `return (count > 0);`. -/
def isEmpty (b : RingBuffer T) : Bool :=
  decide (0 < b.count)

/-- The public operations that can be called on a constructed buffer. -/
inductive Op (T : Type) where
  | add (i : T)
  | prev
  | next
  | cur
  | size
  | isEmpty
deriving DecidableEq, Repr

/-- State after one call of a public operation (its return value is dropped). -/
def step (op : Op T) (b : RingBuffer T) : Option (RingBuffer T) :=
  match op with
  | Op.add i => b.add i
  | Op.prev => b.prev.map Prod.snd
  | Op.next => b.next.map Prod.snd
  | Op.cur => b.cur.map (fun _ => b)
  | Op.size => some b
  | Op.isEmpty => some b

/-- State after a sequence of calls, performed from left to right. -/
def exec : List (Op T) → RingBuffer T → Option (RingBuffer T)
  | [], b => some b
  | op :: ops, b => (step op b).bind (exec ops)

/-- State after `RingBuffer(x, n)` followed by the calls `ops`. -/
def program (x : T) (n : Int) (ops : List (Op T)) : Option (RingBuffer T) :=
  (construct x n).bind (exec ops)

/-- States reachable from a construction with a capacity of at least one. -/
def Reachable (b : RingBuffer T) : Prop :=
  ∃ (x : T) (n : Int) (ops : List (Op T)), 1 ≤ n ∧ n ≤ INT_MAX ∧ program x n ops = some b

/-- The calls `add(x_1); ...; add(x_k)` for the items of a list. -/
def adds (xs : List T) : List (Op T) :=
  xs.map Op.add

/-- The item of the last `add` call of a sequence, or `a` when the sequence has none. -/
def lastAdded (a : T) : List (Op T) → T
  | [] => a
  | Op.add i :: ops => lastAdded i ops
  | _ :: ops => lastAdded a ops

/-- Replaces the item of every `add` call by the number of that insertion, counted from
`t`; the other calls are kept.  With `RingBuffer(0, n)` followed by `stamp 1 cmds` every
stored item is the time of its own insertion. -/
def stamp (t : Nat) : List (Op Unit) → List (Op Nat)
  | [] => []
  | Op.add _ :: ops => Op.add t :: stamp (t + 1) ops
  | Op.prev :: ops => Op.prev :: stamp t ops
  | Op.next :: ops => Op.next :: stamp t ops
  | Op.cur :: ops => Op.cur :: stamp t ops
  | Op.size :: ops => Op.size :: stamp t ops
  | Op.isEmpty :: ops => Op.isEmpty :: stamp t ops

/-- The items passed to the `add` calls of a sequence, in call order. -/
def addedItems : List (Op T) → List T
  | [] => []
  | Op.add i :: ops => i :: addedItems ops
  | _ :: ops => addedItems ops

/-- What `operator<<` writes to the stream: the three numbers of the header lines and, for
every line `data[label] = item`, the label and the item. -/
structure Report (T : Type) where
  BUF_SIZE : Nat
  count : Nat
  head : Nat
  data : List (Nat × T)
deriving DecidableEq, Repr

/-- The loop of `operator<<` (RingBuffer.h, lines 82-83), started at index `i` with `fuel`
iterations left:
```
for(int i=0; i<b.count; ++i)
    os << "\n\tdata[" << i+1 << "] = " << b.buffer[i];
```
-/
def dataLines (buffer : List (Option T)) : Nat → Nat → Option (List (Nat × T))
  | _, 0 => some []
  | i, fuel + 1 =>
    match buffer[i]? with
    | some (some v) => (dataLines buffer (i + 1) fuel).map (fun rest => (i + 1, v) :: rest)
    | _ => none

/-- Friend function `operator<<` (RingBuffer.h, lines 75-87).  The loop counter is an `int`,
so the loop has a defined result only for `count <= INT_MAX`. -/
def operator_lshift (b : RingBuffer T) : Option (Report T) :=
  if b.count ≤ 2147483647 then
    (dataLines b.buffer 0 b.count).map
      (fun d => { BUF_SIZE := b.BUF_SIZE, count := b.count, head := b.head, data := d })
  else none

/-- Repeating the call `op` moves the cursor through the `count` filled slots in a cycle:
every number of calls terminates with the head on a filled slot, `count` calls bring the
head back, fewer than `count` calls visit pairwise distinct heads that cover all filled
slots, and no smaller positive number of calls brings the head back. -/
def CyclesThrough (op : Op T) (b : RingBuffer T) : Prop :=
  (∀ m, ∃ bm, exec (List.replicate m op) b = some bm ∧ bm.head < b.count) ∧
  (∃ bc, exec (List.replicate b.count op) b = some bc ∧ bc.head = b.head) ∧
  (∀ m1 m2 b1 b2, m1 < m2 → m2 < b.count →
    exec (List.replicate m1 op) b = some b1 → exec (List.replicate m2 op) b = some b2 →
    b1.head ≠ b2.head) ∧
  (∀ j, j < b.count →
    ∃ m bm, m < b.count ∧ exec (List.replicate m op) b = some bm ∧ bm.head = j) ∧
  (∀ m bm, 0 < m → m < b.count → exec (List.replicate m op) b = some bm →
    bm.head ≠ b.head)

/-- Representation invariant of the states a constructed buffer can be in. -/
structure WF (b : RingBuffer T) : Prop where
  size_pos : 0 < b.BUF_SIZE
  size_lt : b.BUF_SIZE < 2147483648
  length_eq : b.buffer.length = b.BUF_SIZE
  head_lt : b.head < b.count
  count_le : b.count ≤ b.BUF_SIZE
  written : ∀ j, j < b.count → ∃ v, b.buffer[j]? = some (some v)
  unwritten : ∀ j, b.count ≤ j → j < b.BUF_SIZE → b.buffer[j]? = some none

/-! ## Closed forms of the operations on well-formed states -/

theorem succ_head_mod (b : RingBuffer T) (h : WF b) :
    (b.head + 1) % b.BUF_SIZE = if b.head + 1 = b.BUF_SIZE then 0 else b.head + 1 := by
  have h1 := h.head_lt
  have h2 := h.count_le
  split
  · next e => rw [e, Nat.mod_self]
  · next e => exact Nat.mod_eq_of_lt (by omega)

theorem succ_head_mod_lt (b : RingBuffer T) (h : WF b) :
    (b.head + 1) % b.BUF_SIZE < b.BUF_SIZE :=
  Nat.mod_lt _ h.size_pos

theorem add_eq (b : RingBuffer T) (h : WF b) (v : T) :
    b.add v = some
      { buffer := b.buffer.set ((b.head + 1) % b.BUF_SIZE) (some v)
        head := (b.head + 1) % b.BUF_SIZE
        count := if b.head + 1 = b.count ∧ b.count < b.BUF_SIZE then b.count + 1 else b.count
        BUF_SIZE := b.BUF_SIZE } := by
  have h0 := h.size_pos
  have h1 := h.head_lt
  have h2 := h.count_le
  have h3 := h.size_lt
  have h4 := h.length_eq
  have hm := succ_head_mod b h
  have hlt := succ_head_mod_lt b h
  have hu : (b.head + 1) % UINT_MODULUS = b.head + 1 := by
    unfold UINT_MODULUS; omega
  have hc : (b.count + 1) % UINT_MODULUS = b.count + 1 := by
    unfold UINT_MODULUS; omega
  have hpos : 0 < b.count := by omega
  unfold add
  rw [if_neg (by omega)]
  simp only [hpos, if_true, hu, hc, h4, hlt]
  congr 2
  by_cases hg : b.head + 1 = b.count ∧ b.count < b.BUF_SIZE
  · rw [if_pos hg, if_pos (by rw [hm]; split <;> omega)]
    omega
  · rw [if_neg hg, if_neg (by rw [hm]; split <;> omega)]

theorem prev_eq (b : RingBuffer T) (h : WF b) :
    ∃ v, b.buffer[if b.head = 0 then b.count - 1 else b.head - 1]? = some (some v) ∧
      b.prev = some (v, { b with head := if b.head = 0 then b.count - 1 else b.head - 1 }) := by
  have h1 := h.head_lt
  have h2 := h.count_le
  have h3 := h.size_lt
  have hc : (b.count + UINT_MODULUS - 1) % UINT_MODULUS = b.count - 1 := by
    unfold UINT_MODULUS; omega
  obtain ⟨v, hv⟩ := h.written (if b.head = 0 then b.count - 1 else b.head - 1)
    (by split <;> omega)
  refine ⟨v, hv, ?_⟩
  unfold prev
  simp only [hc, hv]

theorem next_eq (b : RingBuffer T) (h : WF b) :
    ∃ v, b.buffer[if b.head = b.count - 1 then 0 else b.head + 1]? = some (some v) ∧
      b.next = some (v, { b with head := if b.head = b.count - 1 then 0 else b.head + 1 }) := by
  have h1 := h.head_lt
  have h2 := h.count_le
  have h3 := h.size_lt
  have hc : (b.count + UINT_MODULUS - 1) % UINT_MODULUS = b.count - 1 := by
    unfold UINT_MODULUS; omega
  have hu : (b.head + 1) % UINT_MODULUS = b.head + 1 := by
    unfold UINT_MODULUS; omega
  obtain ⟨v, hv⟩ := h.written (if b.head = b.count - 1 then 0 else b.head + 1)
    (by split <;> omega)
  refine ⟨v, hv, ?_⟩
  unfold next
  simp only [hc, hu, hv]

theorem cur_eq (b : RingBuffer T) (h : WF b) :
    ∃ v, b.buffer[b.head]? = some (some v) ∧ b.cur = some v := by
  have h1 := h.head_lt
  obtain ⟨v, hv⟩ := h.written b.head h1
  refine ⟨v, hv, ?_⟩
  unfold cur
  rw [if_pos (by omega)]
  simp only [hv]

theorem construct_eq (x : T) (n : Int) (h1 : 1 ≤ n) (h2 : n ≤ INT_MAX) :
    construct x n = some
      { buffer := some x :: List.replicate (n.toNat - 1) none
        head := 0
        count := 1
        BUF_SIZE := n.toNat } := by
  have hsz : (n % (UINT_MODULUS : Int)).toNat = n.toNat := by
    unfold INT_MAX at h2
    unfold UINT_MODULUS
    omega
  have hpos : 0 < n.toNat := by omega
  obtain ⟨m, hm⟩ : ∃ m, n.toNat = m + 1 := ⟨n.toNat - 1, by omega⟩
  unfold construct add
  simp only [hsz, hm]
  simp [List.replicate_succ, UINT_MODULUS]

/-! ## The invariant holds after construction and is kept by every operation -/

theorem wf_construct (x : T) (n : Int) (h1 : 1 ≤ n) (h2 : n ≤ INT_MAX) (b : RingBuffer T)
    (hb : construct x n = some b) : WF b := by
  rw [construct_eq x n h1 h2] at hb
  cases hb
  unfold INT_MAX at h2
  constructor
  · show 0 < n.toNat
    omega
  · show n.toNat < 2147483648
    omega
  · show (some x :: List.replicate (n.toNat - 1) none).length = n.toNat
    simp only [List.length_cons, List.length_replicate]
    omega
  · show 0 < 1
    omega
  · show 1 ≤ n.toNat
    omega
  · intro j hj
    have hj0 : j = 0 := by
      have : j < 1 := hj
      omega
    subst hj0
    exact ⟨x, by simp⟩
  · intro j hj hlt
    have hj1 : 1 ≤ j := hj
    have hlt1 : j < n.toNat := hlt
    obtain ⟨i, rfl⟩ : ∃ i, j = i + 1 := ⟨j - 1, by omega⟩
    show (some x :: List.replicate (n.toNat - 1) none)[i + 1]? = some none
    rw [List.getElem?_cons_succ, List.getElem?_replicate, if_pos (by omega)]

theorem wf_add (b : RingBuffer T) (h : WF b) (v : T) (b1 : RingBuffer T)
    (hb : b.add v = some b1) : WF b1 := by
  rw [add_eq b h v] at hb
  cases hb
  have h0 := h.size_pos
  have h1 := h.head_lt
  have h2 := h.count_le
  have h4 := h.length_eq
  have hm := succ_head_mod b h
  have hlt := succ_head_mod_lt b h
  constructor
  · exact h0
  · exact h.size_lt
  · show (b.buffer.set _ _).length = b.BUF_SIZE
    rw [List.length_set]; exact h4
  · dsimp only
    rw [hm]
    split <;> split <;> omega
  · dsimp only
    split <;> omega
  · intro j hj
    show ∃ w, (b.buffer.set ((b.head + 1) % b.BUF_SIZE) (some v))[j]? = some (some w)
    have hj1 : j < (if b.head + 1 = b.count ∧ b.count < b.BUF_SIZE then b.count + 1
        else b.count) := hj
    rw [List.getElem?_set]
    by_cases e : (b.head + 1) % b.BUF_SIZE = j
    · rw [if_pos e, if_pos (by omega)]
      exact ⟨v, rfl⟩
    · rw [if_neg e]
      apply h.written
      rw [hm] at e
      split at hj1 <;> split at e <;> omega
  · intro j hj hlt1
    show (b.buffer.set ((b.head + 1) % b.BUF_SIZE) (some v))[j]? = some none
    have hj1 : (if b.head + 1 = b.count ∧ b.count < b.BUF_SIZE then b.count + 1
        else b.count) ≤ j := hj
    have hlt2 : j < b.BUF_SIZE := hlt1
    have e : (b.head + 1) % b.BUF_SIZE ≠ j := by
      rw [hm]
      split at hj1 <;> split <;> omega
    rw [List.getElem?_set_ne e]
    apply h.unwritten j _ hlt2
    split at hj1 <;> omega

theorem wf_prev (b : RingBuffer T) (h : WF b) (v : T) (b1 : RingBuffer T)
    (hb : b.prev = some (v, b1)) : WF b1 := by
  obtain ⟨w, _, hp⟩ := prev_eq b h
  rw [hp] at hb
  cases hb
  have h1 := h.head_lt
  exact ⟨h.size_pos, h.size_lt, h.length_eq, by dsimp only; split <;> omega,
    h.count_le, h.written, h.unwritten⟩

theorem wf_next (b : RingBuffer T) (h : WF b) (v : T) (b1 : RingBuffer T)
    (hb : b.next = some (v, b1)) : WF b1 := by
  obtain ⟨w, _, hp⟩ := next_eq b h
  rw [hp] at hb
  cases hb
  have h1 := h.head_lt
  exact ⟨h.size_pos, h.size_lt, h.length_eq, by dsimp only; split <;> omega,
    h.count_le, h.written, h.unwritten⟩

theorem step_defined (op : Op T) (b : RingBuffer T) (h : WF b) :
    ∃ b1, step op b = some b1 ∧ WF b1 ∧ b1.BUF_SIZE = b.BUF_SIZE := by
  cases op with
  | add i =>
    have ha := add_eq b h i
    exact ⟨_, ha, wf_add b h i _ ha, rfl⟩
  | prev =>
    obtain ⟨w, _, hp⟩ := prev_eq b h
    refine ⟨_, ?_, wf_prev b h w _ hp, rfl⟩
    simp only [step, hp, Option.map_some']
  | next =>
    obtain ⟨w, _, hp⟩ := next_eq b h
    refine ⟨_, ?_, wf_next b h w _ hp, rfl⟩
    simp only [step, hp, Option.map_some']
  | cur =>
    obtain ⟨w, _, hp⟩ := cur_eq b h
    refine ⟨b, ?_, h, rfl⟩
    simp only [step, hp, Option.map_some']
  | size => exact ⟨b, rfl, h, rfl⟩
  | isEmpty => exact ⟨b, rfl, h, rfl⟩

theorem exec_defined (ops : List (Op T)) (b : RingBuffer T) (h : WF b) :
    ∃ b1, exec ops b = some b1 ∧ WF b1 ∧ b1.BUF_SIZE = b.BUF_SIZE := by
  induction ops generalizing b with
  | nil => exact ⟨b, rfl, h, rfl⟩
  | cons op ops ih =>
    obtain ⟨b1, hs, hw, hc⟩ := step_defined op b h
    obtain ⟨b2, he, hw2, hc2⟩ := ih b1 hw
    refine ⟨b2, ?_, hw2, hc2.trans hc⟩
    simp only [exec, hs, Option.some_bind, he]

theorem exec_append (ops1 ops2 : List (Op T)) (b : RingBuffer T) :
    exec (ops1 ++ ops2) b = (exec ops1 b).bind (exec ops2) := by
  induction ops1 generalizing b with
  | nil => rfl
  | cons op ops ih =>
    show (step op b).bind (exec (ops ++ ops2)) = ((step op b).bind (exec ops)).bind (exec ops2)
    cases step op b with
    | none => rfl
    | some b1 => simp only [Option.some_bind, ih]

theorem program_defined (x : T) (n : Int) (h1 : 1 ≤ n) (h2 : n ≤ INT_MAX)
    (ops : List (Op T)) :
    ∃ b, program x n ops = some b ∧ WF b ∧ b.BUF_SIZE = n.toNat := by
  have hc := construct_eq x n h1 h2
  obtain ⟨b, he, hw, hs⟩ := exec_defined ops _ (wf_construct x n h1 h2 _ hc)
  refine ⟨b, ?_, hw, hs⟩
  simp only [program, hc, Option.some_bind, he]

theorem Reachable.wf {b : RingBuffer T} (h : Reachable b) : WF b := by
  obtain ⟨x, n, ops, h1, h2, hp⟩ := h
  obtain ⟨b1, hp1, hw, _⟩ := program_defined x n h1 h2 ops
  rw [hp1] at hp
  cases hp
  exact hw

/-! ## Insert-only histories -/

theorem mod_ne_of_lt_of_lt (N a c : Nat) (h1 : a < c) (h2 : c < a + N) : a % N ≠ c % N := by
  intro e
  have hz : (c - a) % N = 0 := Nat.sub_mod_eq_zero_of_mod_eq e.symm
  rw [Nat.mod_eq_of_lt (by omega)] at hz
  omega

theorem le_of_mod_eq_of_lt (N a c : Nat) (e : a % N = c % N) (h2 : c < a + N) : c ≤ a := by
  by_contra hlt
  exact mod_ne_of_lt_of_lt N a c (by omega) h2 e

/-- Among the insertion numbers `0 .. k`, the largest one that falls into slot `j`. -/
theorem largest_index_in_slot (N k j : Nat) (hj : j < N) (hjk : j ≤ k) :
    ∃ i, i ≤ k ∧ k < i + N ∧ i % N = j ∧ ∀ i', i' ≤ k → i' % N = j → i' ≤ i := by
  have hr : (k - j) % N < N := Nat.mod_lt _ (by omega)
  have hr2 : (k - j) % N ≤ k - j := Nat.mod_le _ _
  have hmod : (k - (k - j) % N) % N = j := by
    have hd := Nat.div_add_mod (k - j) N
    have e : k - (k - j) % N = j + N * ((k - j) / N) := by omega
    rw [e, Nat.add_mul_mod_self_left, Nat.mod_eq_of_lt hj]
  refine ⟨k - (k - j) % N, by omega, by omega, hmod, ?_⟩
  intro i' hi' e
  exact le_of_mod_eq_of_lt N _ i' (by rw [hmod, e]) (by omega)

theorem adds_append (xs : List T) (y : T) : adds (xs ++ [y]) = adds xs ++ [Op.add y] := by
  simp [adds]

theorem exec_singleton (op : Op T) (b : RingBuffer T) : exec [op] b = step op b := by
  show (step op b).bind (exec []) = step op b
  cases step op b <;> rfl

/-- State reached by `add(x_1); ...; add(x_k)` from the state just after construction. -/
theorem exec_adds (x0 : T) (xs : List T) (b0 : RingBuffer T) (h0 : WF b0)
    (hhead : b0.head = 0) (hcount : b0.count = 1) (hslot : b0.buffer[0]? = some (some x0)) :
    ∃ b, exec (adds xs) b0 = some b ∧ WF b ∧ b.BUF_SIZE = b0.BUF_SIZE ∧
      b.head = xs.length % b0.BUF_SIZE ∧
      b.count = min (xs.length + 1) b0.BUF_SIZE ∧
      ∀ i, i ≤ xs.length → xs.length < i + b0.BUF_SIZE →
        b.buffer[i % b0.BUF_SIZE]? = some ((x0 :: xs)[i]?) := by
  have hpos := h0.size_pos
  induction xs using List.reverseRecOn with
  | nil =>
    refine ⟨b0, rfl, h0, rfl, ?_, ?_, ?_⟩
    · rw [hhead]; simp
    · rw [hcount]; simp only [List.length_nil]; omega
    · intro i hi _
      have hi0 : i = 0 := by simpa using hi
      subst hi0
      simpa using hslot
  | append_singleton ys y ih =>
    obtain ⟨b, he, hw, hs, hh, hc, hbuf⟩ := ih
    have ha := add_eq b hw y
    have hw1 := wf_add b hw y _ ha
    have hlen := hw.length_eq
    have hk : (ys ++ [y]).length = ys.length + 1 := by simp
    have hhead1 : (b.head + 1) % b.BUF_SIZE = (ys.length + 1) % b0.BUF_SIZE := by
      rw [hh, hs, Nat.mod_add_mod]
    refine ⟨_, ?_, hw1, hs, ?_, ?_, ?_⟩
    · rw [adds_append, exec_append, he, Option.some_bind, exec_singleton]
      exact ha
    · rw [hk]; exact hhead1
    · rw [hk]
      dsimp only
      rw [hh, hc, hs]
      by_cases hlt : ys.length + 1 < b0.BUF_SIZE
      · rw [Nat.mod_eq_of_lt (by omega), if_pos (by omega)]
        omega
      · rw [if_neg (by omega)]
        omega
    · intro i hi hlt
      rw [hk] at hi hlt
      dsimp only
      rw [hhead1]
      by_cases e : i = ys.length + 1
      · subst e
        rw [List.getElem?_set_self (by rw [hlen, hs]; exact Nat.mod_lt _ hpos)]
        have : (x0 :: (ys ++ [y]))[ys.length + 1]? = some y := by
          rw [List.getElem?_cons_succ, List.getElem?_concat_length]
        rw [this]
      · have hi1 : i ≤ ys.length := by omega
        have hne : (ys.length + 1) % b0.BUF_SIZE ≠ i % b0.BUF_SIZE :=
          Ne.symm (mod_ne_of_lt_of_lt _ i (ys.length + 1) (by omega) hlt)
        rw [List.getElem?_set_ne hne, hbuf i hi1 (by omega)]
        congr 1
        have : x0 :: (ys ++ [y]) = (x0 :: ys) ++ [y] := rfl
        rw [this, List.getElem?_append_left (by simp; omega)]

/-! ## Cursor movement -/

theorem prev_next_cancel (b : RingBuffer T) (h : WF b) :
    ∃ v b1 w, b.prev = some (v, b1) ∧ WF b1 ∧ b1.next = some (w, b) := by
  obtain ⟨v, _, hp⟩ := prev_eq b h
  have hw1 := wf_prev b h v _ hp
  obtain ⟨w, _, hn⟩ := next_eq _ hw1
  refine ⟨v, _, w, hp, hw1, ?_⟩
  rw [hn]
  have h1 := h.head_lt
  obtain ⟨buf, hd, cnt, cap⟩ := b
  dsimp only at h1 ⊢
  have e : (if (if hd = 0 then cnt - 1 else hd - 1) = cnt - 1 then 0
      else (if hd = 0 then cnt - 1 else hd - 1) + 1) = hd := by
    split <;> split <;> omega
  rw [e]

theorem next_prev_cancel (b : RingBuffer T) (h : WF b) :
    ∃ v b1 w, b.next = some (v, b1) ∧ WF b1 ∧ b1.prev = some (w, b) := by
  obtain ⟨v, _, hn⟩ := next_eq b h
  have hw1 := wf_next b h v _ hn
  obtain ⟨w, _, hp⟩ := prev_eq _ hw1
  refine ⟨v, _, w, hn, hw1, ?_⟩
  rw [hp]
  have h1 := h.head_lt
  obtain ⟨buf, hd, cnt, cap⟩ := b
  dsimp only at h1 ⊢
  have e : (if (if hd = cnt - 1 then 0 else hd + 1) = 0 then cnt - 1
      else (if hd = cnt - 1 then 0 else hd + 1) - 1) = hd := by
    split <;> split <;> omega
  rw [e]

theorem exec_prevs_nexts (k : Nat) (b : RingBuffer T) (h : WF b) :
    exec (List.replicate k Op.prev ++ List.replicate k Op.next) b = some b := by
  induction k generalizing b with
  | zero => rfl
  | succ k ih =>
    obtain ⟨v, b1, w, hp, hw1, hn⟩ := prev_next_cancel b h
    rw [List.replicate_succ, List.replicate_succ', List.cons_append, ← List.append_assoc]
    show (step Op.prev b).bind _ = _
    have hs : step Op.prev b = some b1 := by simp only [step, hp, Option.map_some']
    rw [hs, Option.some_bind, exec_append, ih b1 hw1, Option.some_bind, exec_singleton]
    simp only [step, hn, Option.map_some']

theorem exec_nexts_prevs (k : Nat) (b : RingBuffer T) (h : WF b) :
    exec (List.replicate k Op.next ++ List.replicate k Op.prev) b = some b := by
  induction k generalizing b with
  | zero => rfl
  | succ k ih =>
    obtain ⟨v, b1, w, hn, hw1, hp⟩ := next_prev_cancel b h
    rw [List.replicate_succ, List.replicate_succ', List.cons_append, ← List.append_assoc]
    show (step Op.next b).bind _ = _
    have hs : step Op.next b = some b1 := by simp only [step, hn, Option.map_some']
    rw [hs, Option.some_bind, exec_append, ih b1 hw1, Option.some_bind, exec_singleton]
    simp only [step, hp, Option.map_some']

theorem exec_nexts (m : Nat) (b : RingBuffer T) (h : WF b) :
    exec (List.replicate m Op.next) b = some { b with head := (b.head + m) % b.count } := by
  induction m generalizing b with
  | zero =>
    have h1 := h.head_lt
    rw [Nat.add_zero, Nat.mod_eq_of_lt h1]
    rfl
  | succ m ih =>
    obtain ⟨v, _, hn⟩ := next_eq b h
    have hw1 := wf_next b h v _ hn
    have hs : step Op.next b
        = some { b with head := if b.head = b.count - 1 then 0 else b.head + 1 } := by
      simp only [step, hn, Option.map_some']
    rw [List.replicate_succ]
    show (step Op.next b).bind _ = _
    rw [hs, Option.some_bind, ih _ hw1]
    dsimp only
    have h1 := h.head_lt
    have e : ((if b.head = b.count - 1 then 0 else b.head + 1) + m) % b.count
        = (b.head + (m + 1)) % b.count := by
      split
      · next e0 =>
        have : b.head + (m + 1) = m + b.count := by omega
        rw [this, Nat.add_mod_right, Nat.zero_add]
      · next e0 =>
        have : b.head + 1 + m = b.head + (m + 1) := by omega
        rw [this]
    rw [e]

theorem succ_mod_cases (a c : Nat) (hc : 0 < c) :
    (a + 1) % c = if a % c = c - 1 then 0 else a % c + 1 := by
  have hr : a % c < c := Nat.mod_lt _ hc
  rw [← Nat.mod_add_mod]
  split
  · next e =>
    have : a % c + 1 = c := by omega
    rw [this, Nat.mod_self]
  · next e => exact Nat.mod_eq_of_lt (by omega)

/-- The `i`-th of `i` consecutive `next()` calls returns the item `i` slots after the head,
counted cyclically among the `count` filled slots. -/
theorem nth_next (i : Nat) (hi : 1 ≤ i) (b : RingBuffer T) (h : WF b) :
    ∃ b1 v b2, exec (List.replicate (i - 1) Op.next) b = some b1 ∧
      b1.next = some (v, b2) ∧ b2.head = (b.head + i) % b.count ∧
      b.buffer[(b.head + i) % b.count]? = some (some v) := by
  obtain ⟨m, rfl⟩ : ∃ m, i = m + 1 := ⟨i - 1, by omega⟩
  have hex := exec_nexts m b h
  have hw1 : WF ({ b with head := (b.head + m) % b.count } : RingBuffer T) := by
    obtain ⟨b1, hb1, hwf, _⟩ := exec_defined (List.replicate m Op.next) b h
    rw [hex] at hb1
    cases hb1
    exact hwf
  obtain ⟨v, hv, hn⟩ := next_eq _ hw1
  have hpos : 0 < b.count := by have := h.head_lt; omega
  have e := succ_mod_cases (b.head + m) b.count hpos
  dsimp only at hv hn
  rw [← e] at hv hn
  exact ⟨_, v, _, hex, hn, rfl, hv⟩

/-! ## Capacity one -/

theorem wf_capacity_one (v : T) : WF (⟨[some v], 0, 1, 1⟩ : RingBuffer T) := by
  refine ⟨by dsimp only; omega, by dsimp only; omega, rfl, by dsimp only; omega,
    by dsimp only; omega, ?_, ?_⟩
  · intro j hj
    have hj0 : j = 0 := by
      have : j < 1 := hj
      omega
    subst hj0
    exact ⟨v, by simp⟩
  · intro j hj hlt
    have h1 : 1 ≤ j := hj
    have h2 : j < 1 := hlt
    omega

theorem add_capacity_one (v i : T) :
    (⟨[some v], 0, 1, 1⟩ : RingBuffer T).add i = some ⟨[some i], 0, 1, 1⟩ := by
  rw [add_eq _ (wf_capacity_one v) i]
  simp

theorem prev_capacity_one (v : T) :
    (⟨[some v], 0, 1, 1⟩ : RingBuffer T).prev = some (v, ⟨[some v], 0, 1, 1⟩) := by
  obtain ⟨w, hw, hp⟩ := prev_eq _ (wf_capacity_one v)
  have e : v = w := by simpa using hw
  subst e
  rw [hp]
  rfl

theorem next_capacity_one (v : T) :
    (⟨[some v], 0, 1, 1⟩ : RingBuffer T).next = some (v, ⟨[some v], 0, 1, 1⟩) := by
  obtain ⟨w, hw, hp⟩ := next_eq _ (wf_capacity_one v)
  have e : v = w := by simpa using hw
  subst e
  rw [hp]
  rfl

theorem step_capacity_one (v : T) (op : Op T) :
    step op (⟨[some v], 0, 1, 1⟩ : RingBuffer T) = some ⟨[some (lastAdded v [op])], 0, 1, 1⟩ := by
  cases op with
  | add i => exact add_capacity_one v i
  | prev => simp only [step, prev_capacity_one, Option.map_some', lastAdded]
  | next => simp only [step, next_capacity_one, Option.map_some', lastAdded]
  | cur =>
    obtain ⟨w, _, hc⟩ := cur_eq _ (wf_capacity_one v)
    simp only [step, hc, Option.map_some', lastAdded]
  | size => rfl
  | isEmpty => rfl

theorem exec_capacity_one (v : T) (ops : List (Op T)) :
    exec ops ⟨[some v], 0, 1, 1⟩ = some ⟨[some (lastAdded v ops)], 0, 1, 1⟩ := by
  induction ops generalizing v with
  | nil => rfl
  | cons op ops ih =>
    show (step _ _).bind _ = _
    rw [step_capacity_one, Option.some_bind, ih]
    cases op <;> rfl

theorem lastAdded_of_no_add (a : T) (ops : List (Op T))
    (h : ∀ op ∈ ops, ∀ i, op ≠ Op.add i) : lastAdded a ops = a := by
  induction ops with
  | nil => rfl
  | cons op ops ih =>
    have ht : ∀ op1 ∈ ops, ∀ i, op1 ≠ Op.add i :=
      fun op1 hm => h op1 (List.mem_cons_of_mem _ hm)
    cases op with
    | add i => exact absurd rfl (h (Op.add i) (List.mem_cons_self _ _) i)
    | prev => exact ih ht
    | next => exact ih ht
    | cur => exact ih ht
    | size => exact ih ht
    | isEmpty => exact ih ht

/-! ## Frame of the operations -/

theorem read_slot_frame (b : RingBuffer T) (hd : Nat) (v : T) (b1 : RingBuffer T)
    (h : (match b.buffer[hd]? with
      | some (some w) => some (w, ({ b with head := hd } : RingBuffer T))
      | _ => none) = some (v, b1)) :
    b1 = { b with head := hd } ∧ b.buffer[hd]? = some (some v) := by
  cases hq : b.buffer[hd]? with
  | none => rw [hq] at h; cases h
  | some o =>
    cases o with
    | none => rw [hq] at h; cases h
    | some w =>
      rw [hq] at h
      cases h
      exact ⟨rfl, rfl⟩

theorem prev_frame (b : RingBuffer T) (v : T) (b1 : RingBuffer T)
    (h : b.prev = some (v, b1)) :
    b1.buffer = b.buffer ∧ b1.count = b.count ∧ b1.BUF_SIZE = b.BUF_SIZE ∧
      b.buffer[b1.head]? = some (some v) := by
  obtain ⟨e, hv⟩ := read_slot_frame b _ v b1 h
  rw [e]
  exact ⟨rfl, rfl, rfl, hv⟩

theorem next_frame (b : RingBuffer T) (v : T) (b1 : RingBuffer T)
    (h : b.next = some (v, b1)) :
    b1.buffer = b.buffer ∧ b1.count = b.count ∧ b1.BUF_SIZE = b.BUF_SIZE ∧
      b.buffer[b1.head]? = some (some v) := by
  obtain ⟨e, hv⟩ := read_slot_frame b _ v b1 h
  rw [e]
  exact ⟨rfl, rfl, rfl, hv⟩

theorem add_frame (b : RingBuffer T) (i : T) (b1 : RingBuffer T) (h : b.add i = some b1) :
    b1.buffer = b.buffer.set b1.head (some i) ∧ b1.BUF_SIZE = b.BUF_SIZE := by
  unfold add at h
  by_cases h1 : 0 < b.count ∧ b.BUF_SIZE = 0
  · rw [if_pos h1] at h
    cases h
  · rw [if_neg h1] at h
    dsimp only at h
    by_cases h2 : (if 0 < b.count then (b.head + 1) % UINT_MODULUS % b.BUF_SIZE else b.head)
        < b.buffer.length
    · rw [if_pos h2] at h
      cases h
      exact ⟨rfl, rfl⟩
    · rw [if_neg h2] at h
      cases h

/-- Every operation other than `add` leaves the storage, `count` and the capacity as they
are. -/
theorem step_frame (op : Op T) (hop : ∀ i, op ≠ Op.add i) (b b1 : RingBuffer T)
    (h : step op b = some b1) :
    b1.buffer = b.buffer ∧ b1.count = b.count ∧ b1.BUF_SIZE = b.BUF_SIZE := by
  cases op with
  | add i => exact absurd rfl (hop i)
  | prev =>
    simp only [step, Option.map_eq_some'] at h
    obtain ⟨⟨v, b2⟩, hp, rfl⟩ := h
    obtain ⟨h1, h2, h3, _⟩ := prev_frame b v b2 hp
    exact ⟨h1, h2, h3⟩
  | next =>
    simp only [step, Option.map_eq_some'] at h
    obtain ⟨⟨v, b2⟩, hp, rfl⟩ := h
    obtain ⟨h1, h2, h3, _⟩ := next_frame b v b2 hp
    exact ⟨h1, h2, h3⟩
  | cur =>
    simp only [step, Option.map_eq_some'] at h
    obtain ⟨_, _, rfl⟩ := h
    exact ⟨rfl, rfl, rfl⟩
  | size =>
    cases h
    exact ⟨rfl, rfl, rfl⟩
  | isEmpty =>
    cases h
    exact ⟨rfl, rfl, rfl⟩

theorem step_count_le (op : Op T) (b : RingBuffer T) (h : WF b) :
    ∃ b1, step op b = some b1 ∧ WF b1 ∧ b1.BUF_SIZE = b.BUF_SIZE ∧ b.count ≤ b1.count := by
  obtain ⟨b1, hs, hw, hc⟩ := step_defined op b h
  refine ⟨b1, hs, hw, hc, ?_⟩
  cases op with
  | add i =>
    have ha := add_eq b h i
    have hs1 : b.add i = some b1 := hs
    rw [ha] at hs1
    cases hs1
    dsimp only
    split <;> omega
  | prev => exact le_of_eq (step_frame _ (fun i => by intro e; cases e) b b1 hs).2.1.symm
  | next => exact le_of_eq (step_frame _ (fun i => by intro e; cases e) b b1 hs).2.1.symm
  | cur => exact le_of_eq (step_frame _ (fun i => by intro e; cases e) b b1 hs).2.1.symm
  | size => exact le_of_eq (step_frame _ (fun i => by intro e; cases e) b b1 hs).2.1.symm
  | isEmpty => exact le_of_eq (step_frame _ (fun i => by intro e; cases e) b b1 hs).2.1.symm

theorem exec_count_le (ops : List (Op T)) (b : RingBuffer T) (h : WF b) :
    ∃ b1, exec ops b = some b1 ∧ WF b1 ∧ b1.BUF_SIZE = b.BUF_SIZE ∧ b.count ≤ b1.count := by
  induction ops generalizing b with
  | nil => exact ⟨b, rfl, h, rfl, le_refl _⟩
  | cons op ops ih =>
    obtain ⟨b1, hs, hw, hc, hle⟩ := step_count_le op b h
    obtain ⟨b2, he, hw2, hc2, hle2⟩ := ih b1 hw
    refine ⟨b2, ?_, hw2, hc2.trans hc, le_trans hle hle2⟩
    simp only [exec, hs, Option.some_bind, he]


/-! ## Stream output -/

theorem dataLines_spec (buffer : List (Option T)) (fuel i : Nat)
    (h : ∀ j, i ≤ j → j < i + fuel → ∃ v, buffer[j]? = some (some v)) :
    ∃ d, dataLines buffer i fuel = some d ∧ d.length = fuel ∧
      ∀ k, k < fuel → ∃ v, buffer[i + k]? = some (some v) ∧ d[k]? = some (i + k + 1, v) := by
  induction fuel generalizing i with
  | zero => exact ⟨[], rfl, rfl, fun k hk => absurd hk (Nat.not_lt_zero k)⟩
  | succ fuel ih =>
    obtain ⟨v, hv⟩ := h i (le_refl _) (by omega)
    obtain ⟨d, hd, hlen, hk⟩ := ih (i + 1) (fun j h1 h2 => h j (by omega) (by omega))
    refine ⟨(i + 1, v) :: d, ?_, by simp [hlen], ?_⟩
    · simp only [dataLines, hv, hd, Option.map_some']
    · intro k hlt
      cases k with
      | zero => exact ⟨v, hv, by simp⟩
      | succ k =>
        obtain ⟨w, hw1, hw2⟩ := hk k (by omega)
        refine ⟨w, ?_, ?_⟩
        · have e : i + (k + 1) = i + 1 + k := by omega
          rw [e]; exact hw1
        · have e : i + (k + 1) + 1 = i + 1 + k + 1 := by omega
          rw [List.getElem?_cons_succ, e]; exact hw2

/-- On a well-formed state `operator<<` prints the header numbers and one line per filled
slot, in slot order. -/
theorem operator_lshift_eq (b : RingBuffer T) (h : WF b) :
    ∃ d, operator_lshift b
        = some { BUF_SIZE := b.BUF_SIZE, count := b.count, head := b.head, data := d } ∧
      d.length = b.count ∧
      ∀ k, k < b.count → ∃ v, b.buffer[k]? = some (some v) ∧ d[k]? = some (k + 1, v) := by
  have h1 := h.count_le
  have h2 := h.size_lt
  obtain ⟨d, hd, hlen, hk⟩ := dataLines_spec b.buffer b.count 0
    (fun j _ hj => h.written j (by omega))
  refine ⟨d, ?_, hlen, ?_⟩
  · unfold operator_lshift
    rw [if_pos (by omega), hd]
    rfl
  · intro k hlt
    obtain ⟨v, hv1, hv2⟩ := hk k hlt
    rw [Nat.zero_add] at hv1 hv2
    exact ⟨v, hv1, hv2⟩

/-! ## Stored items come from the constructor or from `add` -/

theorem step_stored (op : Op T) (b b1 : RingBuffer T) (S : List T)
    (hS : ∀ (j : Nat) (v : T), b.buffer[j]? = some (some v) → v ∈ S)
    (h : step op b = some b1) :
    ∀ (j : Nat) (v : T), b1.buffer[j]? = some (some v) → v ∈ S ++ addedItems [op] := by
  intro j v hv
  by_cases hop : ∃ i, op = Op.add i
  · obtain ⟨i, rfl⟩ := hop
    obtain ⟨hbuf, _⟩ := add_frame b i b1 h
    rw [hbuf, List.getElem?_set] at hv
    by_cases e : b1.head = j
    · rw [if_pos e] at hv
      by_cases hl : b1.head < b.buffer.length
      · rw [if_pos hl] at hv
        have : i = v := Option.some.inj (Option.some.inj hv)
        rw [← this]
        simp [addedItems]
      · rw [if_neg hl] at hv
        cases hv
    · rw [if_neg e] at hv
      exact List.mem_append_left _ (hS j v hv)
  · have hop1 : ∀ i, op ≠ Op.add i := fun i e => hop ⟨i, e⟩
    obtain ⟨hbuf, _, _⟩ := step_frame op hop1 b b1 h
    rw [hbuf] at hv
    exact List.mem_append_left _ (hS j v hv)

theorem addedItems_cons (op : Op T) (ops : List (Op T)) :
    addedItems (op :: ops) = addedItems [op] ++ addedItems ops := by
  cases op <;> rfl

theorem exec_stored (ops : List (Op T)) (b b1 : RingBuffer T) (S : List T)
    (hS : ∀ (j : Nat) (v : T), b.buffer[j]? = some (some v) → v ∈ S)
    (h : exec ops b = some b1) :
    ∀ (j : Nat) (v : T), b1.buffer[j]? = some (some v) → v ∈ S ++ addedItems ops := by
  induction ops generalizing b S with
  | nil =>
    cases h
    intro j v hv
    exact List.mem_append_left _ (hS j v hv)
  | cons op ops ih =>
    cases hs : step op b with
    | none =>
      simp only [exec, hs, Option.none_bind] at h
      cases h
    | some b2 =>
      simp only [exec, hs, Option.some_bind] at h
      have := ih b2 (S ++ addedItems [op]) (step_stored op b b2 S hS hs) h
      rw [addedItems_cons, ← List.append_assoc]
      exact this

theorem program_stored (x : T) (n : Int) (h1 : 1 ≤ n) (h2 : n ≤ INT_MAX) (ops : List (Op T))
    (b : RingBuffer T) (h : program x n ops = some b) :
    ∀ (j : Nat) (v : T), b.buffer[j]? = some (some v) → v ∈ x :: addedItems ops := by
  have hc := construct_eq x n h1 h2
  simp only [program, hc, Option.some_bind] at h
  refine exec_stored ops _ b [x] ?_ h
  intro j v hv
  cases j with
  | zero =>
    have : x = v := by simpa using hv
    simp [this]
  | succ j =>
    dsimp only at hv
    rw [List.getElem?_cons_succ, List.getElem?_replicate] at hv
    split at hv <;> cases hv


/-! ## Cycles of the cursor -/

theorem exec_replicate_succ (op : Op T) (m : Nat) (b : RingBuffer T) :
    exec (List.replicate (m + 1) op) b = (exec (List.replicate m op) b).bind (step op) := by
  rw [List.replicate_succ', exec_append]
  cases exec (List.replicate m op) b with
  | none => rfl
  | some b1 => exact exec_singleton op b1

theorem exec_prevs (m : Nat) (b : RingBuffer T) (h : WF b) :
    ∃ hm, exec (List.replicate m Op.prev) b = some { b with head := hm } ∧
      hm < b.count ∧ (hm + m) % b.count = b.head := by
  induction m with
  | zero => exact ⟨b.head, rfl, h.head_lt, Nat.mod_eq_of_lt h.head_lt⟩
  | succ m ih =>
    obtain ⟨hm, he, hlt, hmod⟩ := ih
    have hw1 : WF ({ b with head := hm } : RingBuffer T) :=
      ⟨h.size_pos, h.size_lt, h.length_eq, hlt, h.count_le, h.written, h.unwritten⟩
    obtain ⟨v, _, hp⟩ := prev_eq _ hw1
    dsimp only at hp
    refine ⟨if hm = 0 then b.count - 1 else hm - 1, ?_, by split <;> omega, ?_⟩
    · rw [exec_replicate_succ, he, Option.some_bind]
      simp only [step, hp, Option.map_some']
    · rw [← hmod]
      split
      · next e =>
        have : b.count - 1 + (m + 1) = m + b.count := by omega
        rw [this, Nat.add_mod_right, e, Nat.zero_add]
      · next e =>
        have : hm - 1 + (m + 1) = hm + m := by omega
        rw [this]

/-- A cursor whose position after `m` calls depends exactly on `m mod count` cycles through
the filled slots. -/
theorem cycles_of_phase (op : Op T) (b : RingBuffer T) (f : Nat → Nat)
    (hex : ∀ m, exec (List.replicate m op) b = some { b with head := f m })
    (hlt : ∀ m, f m < b.count) (h0 : f 0 = b.head)
    (hinj : ∀ m1 m2, f m1 = f m2 ↔ m1 % b.count = m2 % b.count) :
    CyclesThrough op b := by
  have hpos : 0 < b.count := Nat.lt_of_le_of_lt (Nat.zero_le _) (hlt 0)
  have hhead : ∀ m bm, exec (List.replicate m op) b = some bm → bm.head = f m := by
    intro m bm he
    rw [hex m] at he
    cases he
    rfl
  refine ⟨?_, ?_, ?_, ?_, ?_⟩
  · intro m
    exact ⟨_, hex m, hlt m⟩
  · refine ⟨_, hex b.count, ?_⟩
    show f b.count = b.head
    rw [← h0]
    exact (hinj _ _).2 (by rw [Nat.mod_self, Nat.zero_mod])
  · intro m1 m2 b1 b2 h12 h2 he1 he2 e
    rw [hhead m1 b1 he1, hhead m2 b2 he2] at e
    have := (hinj m1 m2).1 e
    rw [Nat.mod_eq_of_lt (by omega), Nat.mod_eq_of_lt h2] at this
    omega
  · intro j hj
    have hi : Function.Injective (fun m : Fin b.count => (⟨f m.1, hlt m.1⟩ : Fin b.count)) := by
      intro m1 m2 e
      have e1 : f m1.1 = f m2.1 := congrArg Fin.val e
      have := (hinj m1.1 m2.1).1 e1
      rw [Nat.mod_eq_of_lt m1.2, Nat.mod_eq_of_lt m2.2] at this
      exact Fin.ext this
    obtain ⟨m, hm⟩ := (Finite.injective_iff_surjective.1 hi) ⟨j, hj⟩
    exact ⟨m.1, _, m.2, hex m.1, congrArg Fin.val hm⟩
  · intro m bm hm0 hmc he e
    rw [hhead m bm he, ← h0] at e
    have := (hinj m 0).1 e
    rw [Nat.mod_eq_of_lt hmc, Nat.zero_mod] at this
    omega

theorem cycles_next (b : RingBuffer T) (h : WF b) : CyclesThrough Op.next b := by
  apply cycles_of_phase Op.next b (fun m => (b.head + m) % b.count)
  · exact fun m => exec_nexts m b h
  · exact fun m => Nat.mod_lt _ (Nat.lt_of_le_of_lt (Nat.zero_le _) h.head_lt)
  · exact Nat.mod_eq_of_lt h.head_lt
  · intro m1 m2
    constructor
    · intro e
      exact Nat.ModEq.add_left_cancel' b.head e
    · intro e
      exact Nat.ModEq.add_left b.head e

theorem cycles_prev (b : RingBuffer T) (h : WF b) : CyclesThrough Op.prev b := by
  choose f hf1 hf2 hf3 using fun m => exec_prevs m b h
  apply cycles_of_phase Op.prev b f hf1 hf2
  · have := hf3 0
    rw [Nat.add_zero, Nat.mod_eq_of_lt (hf2 0)] at this
    exact this
  · intro m1 m2
    constructor
    · intro e
      have e1 : (f m1 + m1) % b.count = (f m1 + m2) % b.count := by
        rw [hf3 m1, e, hf3 m2]
      exact Nat.ModEq.add_left_cancel' (f m1) e1
    · intro e
      have e1 : (f m1 + m1) % b.count = (f m2 + m1) % b.count := by
        rw [hf3 m1, ← hf3 m2]
        exact Nat.ModEq.add_left (f m2) e.symm
      have e2 : f m1 % b.count = f m2 % b.count := Nat.ModEq.add_right_cancel' m1 e1
      rwa [Nat.mod_eq_of_lt (hf2 m1), Nat.mod_eq_of_lt (hf2 m2)] at e2


/-! ## Verified claims -/

/-- C1 (bounds invariant): for every capacity `n >= 1` (an `int`), every initial item and
every finite sequence of `add`/`prev`/`next`/`cur`/`size`/`isEmpty` calls after
construction, the calls all terminate in a state whose capacity is `n`, whose storage has
`n` slots, and in which `0 <= head < capacity` and `0 <= count <= capacity`. -/
theorem bounds_invariant (x : T) (n : Int) (h1 : 1 ≤ n) (h2 : n ≤ INT_MAX)
    (ops : List (Op T)) :
    ∃ b, program x n ops = some b ∧ (b.BUF_SIZE : Int) = n ∧ b.buffer.length = b.BUF_SIZE ∧
      0 ≤ b.head ∧ b.head < b.BUF_SIZE ∧ 0 ≤ b.count ∧ b.count ≤ b.BUF_SIZE := by
  obtain ⟨b, hp, hw, hs⟩ := program_defined x n h1 h2 ops
  have := hw.head_lt
  have := hw.count_le
  refine ⟨b, hp, ?_, hw.length_eq, ?_, ?_, ?_, hw.count_le⟩ <;> omega

theorem bounds_invariant_witness :
    (1 : Int) ≤ 3 ∧ (3 : Int) ≤ INT_MAX ∧
    ∃ b, program (7 : Nat) 3 [Op.add 8, Op.prev, Op.add 9, Op.next, Op.cur, Op.add 1,
        Op.size, Op.add 2, Op.isEmpty] = some b ∧
      (b.BUF_SIZE : Int) = 3 ∧ b.buffer.length = b.BUF_SIZE ∧
      0 ≤ b.head ∧ b.head < b.BUF_SIZE ∧ 0 ≤ b.count ∧ b.count ≤ b.BUF_SIZE :=
  ⟨by decide, by decide, bounds_invariant 7 3 (by decide) (by decide) _⟩

/-- C2 (construction seeds exactly one item): for every item `x` and capacity `n >= 1`,
`RingBuffer(x, n)` yields a state with `head == 0`, `count == 1`, `buffer[0] == x`, every
other slot unassigned, `cur() == x` and `isEmpty() == true`; `isEmpty()` is true exactly
when `count > 0`. -/
theorem construction_seeds_one_item (x : T) (n : Int) (h1 : 1 ≤ n) (h2 : n ≤ INT_MAX) :
    ∃ b, construct x n = some b ∧ (b.BUF_SIZE : Int) = n ∧ b.head = 0 ∧ b.count = 1 ∧
      b.buffer[0]? = some (some x) ∧
      (∀ j, 1 ≤ j → j < b.BUF_SIZE → b.buffer[j]? = some none) ∧
      b.cur = some x ∧ b.isEmpty = true ∧
      (∀ c : RingBuffer T, c.isEmpty = true ↔ 0 < c.count) := by
  have hc := construct_eq x n h1 h2
  have hw := wf_construct x n h1 h2 _ hc
  refine ⟨_, hc, ?_, rfl, rfl, by simp, ?_, ?_, rfl, ?_⟩
  · show ((n.toNat : Nat) : Int) = n
    omega
  · intro j hj hlt
    exact hw.unwritten j hj hlt
  · simp [cur]
  · intro c
    simp [isEmpty]

theorem construction_seeds_one_item_witness :
    (1 : Int) ≤ 3 ∧ (3 : Int) ≤ INT_MAX ∧
    ∃ b, construct (7 : Nat) 3 = some b ∧ (b.BUF_SIZE : Int) = 3 ∧ b.head = 0 ∧ b.count = 1 ∧
      b.buffer[0]? = some (some 7) ∧
      (∀ j, 1 ≤ j → j < b.BUF_SIZE → b.buffer[j]? = some none) ∧
      b.cur = some 7 ∧ b.isEmpty = true ∧
      (∀ c : RingBuffer Nat, c.isEmpty = true ↔ 0 < c.count) :=
  ⟨by decide, by decide, construction_seeds_one_item 7 3 (by decide) (by decide)⟩

/-- C3 (add makes the item current): in every state reachable from a construction with
capacity `>= 1` and for every item `v`, `add(v)` terminates, afterwards `cur()` returns `v`,
and the new head is `(old head + 1) mod capacity`. -/
theorem add_makes_current (b : RingBuffer T) (hb : Reachable b) (v : T) :
    ∃ b1, b.add v = some b1 ∧ b1.cur = some v ∧ b1.head = (b.head + 1) % b.BUF_SIZE := by
  have hw := hb.wf
  have ha := add_eq b hw v
  have hw1 := wf_add b hw v _ ha
  have hlt := succ_head_mod_lt b hw
  have hlen := hw.length_eq
  refine ⟨_, ha, ?_, rfl⟩
  obtain ⟨w, hw2, hcur⟩ := cur_eq _ hw1
  rw [hcur]
  dsimp only at hw2
  rw [List.getElem?_set_self (by omega)] at hw2
  cases hw2
  rfl

theorem reachable_example :
    Reachable (⟨[some 7, some 8, some 9], 1, 3, 3⟩ : RingBuffer Nat) :=
  ⟨7, 3, [Op.add 8, Op.add 9, Op.prev], by decide, by decide, by decide⟩

theorem add_makes_current_witness :
    Reachable (⟨[some 7, some 8, some 9], 1, 3, 3⟩ : RingBuffer Nat) ∧
    ∃ b1, (⟨[some 7, some 8, some 9], 1, 3, 3⟩ : RingBuffer Nat).add 5 = some b1 ∧
      b1.cur = some 5 ∧ b1.head = (1 + 1) % 3 :=
  ⟨reachable_example, add_makes_current _ reachable_example 5⟩

/-- C4 (overwrite when full): in every reachable state with `count == capacity` and for
every item `v`, `add(v)` writes `v` into slot `(head + 1) mod capacity`, leaves every other
slot of the storage unchanged and leaves `count` equal to the capacity. -/
theorem overwrite_when_full (b : RingBuffer T) (hb : Reachable b)
    (hfull : b.count = b.BUF_SIZE) (v : T) :
    ∃ b1, b.add v = some b1 ∧
      b1.buffer[(b.head + 1) % b.BUF_SIZE]? = some (some v) ∧
      (∀ j, j ≠ (b.head + 1) % b.BUF_SIZE → b1.buffer[j]? = b.buffer[j]?) ∧
      b1.buffer.length = b.buffer.length ∧
      b1.count = b.BUF_SIZE ∧ b1.BUF_SIZE = b.BUF_SIZE := by
  have hw := hb.wf
  have ha := add_eq b hw v
  have hlt := succ_head_mod_lt b hw
  have hlen := hw.length_eq
  refine ⟨_, ha, ?_, ?_, ?_, ?_, rfl⟩
  · exact List.getElem?_set_self (by omega)
  · intro j hj
    exact List.getElem?_set_ne (Ne.symm hj)
  · exact List.length_set _ _ _
  · dsimp only
    rw [if_neg (by omega)]
    exact hfull

theorem overwrite_when_full_witness :
    Reachable (⟨[some 7, some 8, some 9], 1, 3, 3⟩ : RingBuffer Nat) ∧
    (⟨[some 7, some 8, some 9], 1, 3, 3⟩ : RingBuffer Nat).count = 3 ∧
    ∃ b1, (⟨[some 7, some 8, some 9], 1, 3, 3⟩ : RingBuffer Nat).add 5 = some b1 ∧
      b1.buffer[(1 + 1) % 3]? = some (some 5) ∧
      (∀ j, j ≠ (1 + 1) % 3 → b1.buffer[j]? = [some 7, some 8, some 9][j]?) ∧
      b1.buffer.length = 3 ∧ b1.count = 3 ∧ b1.BUF_SIZE = 3 :=
  ⟨reachable_example, rfl, overwrite_when_full _ reachable_example rfl 5⟩

/-- C5 (contents after insert-only use): for every capacity `n >= 1` and items
`x_0, ..., x_k`, where `x_0` is passed to the constructor and `x_1 .. x_k` are added in
order, the calls terminate in a state with `count == min(k+1, n)`, `head == k mod n`,
`cur() == x_k`, and every slot `j < count` holds `x_i` for the largest `i <= k` with
`i mod n == j`, which is one of the last `count` insertions; conversely each of the last
`count` inserted items `x_i` is stored (in slot `i mod n`); and once `k >= n` no slot holds
`x_0` any more when `x_0` differs from all later items. -/
theorem contents_after_inserts (n : Int) (h1 : 1 ≤ n) (h2 : n ≤ INT_MAX) (x0 : T)
    (xs : List T) :
    ∃ b, program x0 n (adds xs) = some b ∧ (b.BUF_SIZE : Int) = n ∧
      b.count = min (xs.length + 1) b.BUF_SIZE ∧
      b.head = xs.length % b.BUF_SIZE ∧
      b.cur = (x0 :: xs)[xs.length]? ∧
      (∀ j, j < b.count → ∃ i, i ≤ xs.length ∧ i % b.BUF_SIZE = j ∧
        (∀ i', i' ≤ xs.length → i' % b.BUF_SIZE = j → i' ≤ i) ∧
        xs.length < i + b.count ∧ b.buffer[j]? = some ((x0 :: xs)[i]?)) ∧
      (∀ i, i ≤ xs.length → xs.length < i + b.count →
        b.buffer[i % b.BUF_SIZE]? = some ((x0 :: xs)[i]?)) ∧
      (b.BUF_SIZE ≤ xs.length → x0 ∉ xs → ∀ j : Nat, b.buffer[j]? ≠ some (some x0)) := by
  have hc := construct_eq x0 n h1 h2
  have hw0 := wf_construct x0 n h1 h2 _ hc
  obtain ⟨b, he, hw, hs, hh, hcnt, hbuf⟩ := exec_adds x0 xs _ hw0 rfl rfl (by simp)
  dsimp only at hs hh hcnt hbuf
  have hpos := hw.size_pos
  have hcle := hw.count_le
  have hlen := hw.length_eq
  rw [← hs] at hh hcnt hbuf
  -- the slot-wise description
  have hslot : ∀ j, j < b.count → ∃ i, i ≤ xs.length ∧ i % b.BUF_SIZE = j ∧
      (∀ i', i' ≤ xs.length → i' % b.BUF_SIZE = j → i' ≤ i) ∧
      xs.length < i + b.count ∧ b.buffer[j]? = some ((x0 :: xs)[i]?) := by
    intro j hj
    obtain ⟨i, hi, hlt, hmod, hmax⟩ :=
      largest_index_in_slot b.BUF_SIZE xs.length j (by omega) (by omega)
    refine ⟨i, hi, hmod, hmax, ?_, ?_⟩
    · rw [hcnt]
      omega
    · have := hbuf i hi hlt
      rw [hmod] at this
      exact this
  refine ⟨b, ?_, ?_, hcnt, hh, ?_, hslot, ?_, ?_⟩
  · simp only [program, hc, Option.some_bind, he]
  · rw [hs]
    show ((n.toNat : Nat) : Int) = n
    omega
  · obtain ⟨w, hw2, hcur⟩ := cur_eq b hw
    rw [hcur]
    have := hbuf xs.length (le_refl _) (by omega)
    rw [← hh, hw2] at this
    exact Option.some.inj this
  · intro i hi hlt
    exact hbuf i hi (by omega)
  · intro hge hnot j hcon
    have hjlt : j < b.buffer.length := by
      by_contra hnlt
      rw [List.getElem?_eq_none (by omega)] at hcon
      cases hcon
    have hfull : b.count = b.BUF_SIZE := by rw [hcnt]; omega
    obtain ⟨i, hi, _, _, hlast, hval⟩ := hslot j (by omega)
    rw [hval] at hcon
    have hi1 : 1 ≤ i := by omega
    obtain ⟨m, rfl⟩ : ∃ m, i = m + 1 := ⟨i - 1, by omega⟩
    rw [List.getElem?_cons_succ] at hcon
    have hmem : xs[m]? = some x0 := Option.some.inj hcon
    exact hnot (List.getElem?_mem hmem)

theorem contents_after_inserts_witness :
    (1 : Int) ≤ 3 ∧ (3 : Int) ≤ INT_MAX ∧
    ∃ b, program (10 : Nat) 3 (adds [11, 12, 13]) = some b ∧ (b.BUF_SIZE : Int) = 3 ∧
      b.count = min ([11, 12, 13].length + 1) b.BUF_SIZE ∧
      b.head = [11, 12, 13].length % b.BUF_SIZE ∧
      b.cur = (10 :: [11, 12, 13])[[11, 12, 13].length]? ∧
      (∀ j, j < b.count → ∃ i, i ≤ [11, 12, 13].length ∧ i % b.BUF_SIZE = j ∧
        (∀ i', i' ≤ [11, 12, 13].length → i' % b.BUF_SIZE = j → i' ≤ i) ∧
        [11, 12, 13].length < i + b.count ∧ b.buffer[j]? = some ((10 :: [11, 12, 13])[i]?)) ∧
      (∀ i, i ≤ [11, 12, 13].length → [11, 12, 13].length < i + b.count →
        b.buffer[i % b.BUF_SIZE]? = some ((10 :: [11, 12, 13])[i]?)) ∧
      (b.BUF_SIZE ≤ [11, 12, 13].length → 10 ∉ [11, 12, 13] →
        ∀ j : Nat, b.buffer[j]? ≠ some (some 10)) :=
  ⟨by decide, by decide, contents_after_inserts 3 (by decide) (by decide) 10 [11, 12, 13]⟩

/-- C6 (prev/next are inverses at steady state): in every reachable state with
`count == capacity` and for every `k >= 0`, `k` calls of `prev()` followed by `k` calls of
`next()`, and likewise `k` calls of `next()` followed by `k` calls of `prev()`, all
terminate and restore the original state; in particular `head` has its original value,
`cur()` returns the same item as before and the buffer is still full. -/
theorem prev_next_inverse_when_full (b : RingBuffer T) (hb : Reachable b)
    (hfull : b.count = b.BUF_SIZE) (k : Nat) :
    (∃ b1, exec (List.replicate k Op.prev ++ List.replicate k Op.next) b = some b1 ∧
      b1.head = b.head ∧ b1.cur = b.cur ∧ b1.count = b1.BUF_SIZE ∧ b1 = b) ∧
    (∃ b2, exec (List.replicate k Op.next ++ List.replicate k Op.prev) b = some b2 ∧
      b2.head = b.head ∧ b2.cur = b.cur ∧ b2.count = b2.BUF_SIZE ∧ b2 = b) :=
  ⟨⟨b, exec_prevs_nexts k b hb.wf, rfl, rfl, hfull, rfl⟩,
    ⟨b, exec_nexts_prevs k b hb.wf, rfl, rfl, hfull, rfl⟩⟩

theorem prev_next_inverse_when_full_witness :
    Reachable (⟨[some 7, some 8, some 9], 1, 3, 3⟩ : RingBuffer Nat) ∧
    (⟨[some 7, some 8, some 9], 1, 3, 3⟩ : RingBuffer Nat).count = 3 ∧
    (∃ b1, exec (List.replicate 5 Op.prev ++ List.replicate 5 Op.next)
        (⟨[some 7, some 8, some 9], 1, 3, 3⟩ : RingBuffer Nat) = some b1 ∧
      b1.head = 1 ∧ b1.cur = (⟨[some 7, some 8, some 9], 1, 3, 3⟩ : RingBuffer Nat).cur ∧
      b1.count = b1.BUF_SIZE ∧ b1 = ⟨[some 7, some 8, some 9], 1, 3, 3⟩) ∧
    (∃ b2, exec (List.replicate 5 Op.next ++ List.replicate 5 Op.prev)
        (⟨[some 7, some 8, some 9], 1, 3, 3⟩ : RingBuffer Nat) = some b2 ∧
      b2.head = 1 ∧ b2.cur = (⟨[some 7, some 8, some 9], 1, 3, 3⟩ : RingBuffer Nat).cur ∧
      b2.count = b2.BUF_SIZE ∧ b2 = ⟨[some 7, some 8, some 9], 1, 3, 3⟩) :=
  ⟨reachable_example, rfl, prev_next_inverse_when_full _ reachable_example rfl 5⟩

/-- C7 (wrap-around): for every capacity `n >= 1` and items `x_0 .. x_{n-1}` inserted by the
construction followed by `n-1` adds, the buffer is full with head at slot `n-1`; the `i`-th
consecutive `next()` call (`i >= 1`) returns `x_{(i-1) mod n}`; a `prev()` issued right after
the first `next()` returns `x_{n-1}`.  In every reachable state `next()` sets head to `0`
when `head == count-1` and to `head+1` otherwise, `prev()` sets head to `count-1` when
`head == 0` and to `head-1` otherwise, both change nothing else and return the item stored
at the new head. -/
theorem wrap_around (n : Int) (h1 : 1 ≤ n) (h2 : n ≤ INT_MAX) (x0 : T) (xs : List T)
    (hlen : (xs.length : Int) + 1 = n) :
    (∃ b, program x0 n (adds xs) = some b ∧ b.count = b.BUF_SIZE ∧ b.head = xs.length ∧
      (∀ i, 1 ≤ i → ∃ b1 v b2, exec (List.replicate (i - 1) Op.next) b = some b1 ∧
        b1.next = some (v, b2) ∧ (x0 :: xs)[(i - 1) % (xs.length + 1)]? = some v) ∧
      (∃ v b1 w b2, b.next = some (v, b1) ∧ v = x0 ∧ b1.prev = some (w, b2) ∧
        (x0 :: xs)[xs.length]? = some w)) ∧
    (∀ c : RingBuffer T, Reachable c →
      (∃ v, c.next = some (v, { c with head := if c.head = c.count - 1 then 0 else c.head + 1 }) ∧
        c.buffer[if c.head = c.count - 1 then 0 else c.head + 1]? = some (some v)) ∧
      (∃ v, c.prev = some (v, { c with head := if c.head = 0 then c.count - 1 else c.head - 1 }) ∧
        c.buffer[if c.head = 0 then c.count - 1 else c.head - 1]? = some (some v))) := by
  constructor
  · have hc := construct_eq x0 n h1 h2
    have hw0 := wf_construct x0 n h1 h2 _ hc
    obtain ⟨b, he, hw, hs, hh, hcnt, hbuf⟩ := exec_adds x0 xs _ hw0 rfl rfl (by simp)
    dsimp only at hs hh hcnt hbuf
    have hN : n.toNat = xs.length + 1 := by omega
    rw [hN] at hs hh hcnt hbuf
    rw [Nat.mod_eq_of_lt (by omega)] at hh
    rw [Nat.min_self] at hcnt
    have hslot : ∀ j, j < xs.length + 1 → b.buffer[j]? = some ((x0 :: xs)[j]?) := by
      intro j hj
      have := hbuf j (by omega) (by omega)
      rwa [Nat.mod_eq_of_lt hj] at this
    refine ⟨b, ?_, by rw [hcnt, hs], hh, ?_, ?_⟩
    · simp only [program, hc, Option.some_bind, he]
    · intro i hi
      obtain ⟨b1, v, b2, hex, hn, _, hv⟩ := nth_next i hi b hw
      refine ⟨b1, v, b2, hex, hn, ?_⟩
      have e : (b.head + i) % b.count = (i - 1) % (xs.length + 1) := by
        rw [hh, hcnt]
        have : xs.length + i = (i - 1) + (xs.length + 1) := by omega
        rw [this, Nat.add_mod_right]
      rw [e, hslot _ (Nat.mod_lt _ (by omega))] at hv
      exact Option.some.inj hv
    · obtain ⟨v, hv, hn⟩ := next_eq b hw
      have hw1 := wf_next b hw v _ hn
      obtain ⟨w, hwv, hp⟩ := prev_eq _ hw1
      have e1 : b.head = b.count - 1 := by omega
      refine ⟨v, _, w, _, hn, ?_, hp, ?_⟩
      · rw [if_pos e1, hslot 0 (by omega)] at hv
        simpa using hv.symm
      · dsimp only at hwv
        rw [if_pos e1, if_pos rfl, hcnt, Nat.add_sub_cancel, hslot _ (by omega)] at hwv
        exact Option.some.inj hwv
  · intro c hcr
    obtain ⟨v, hv, hn⟩ := next_eq c hcr.wf
    obtain ⟨w, hwv, hp⟩ := prev_eq c hcr.wf
    exact ⟨⟨v, hn, hv⟩, ⟨w, hp, hwv⟩⟩

theorem wrap_around_witness :
    (1 : Int) ≤ 3 ∧ (3 : Int) ≤ INT_MAX ∧ (([11, 12] : List Nat).length : Int) + 1 = 3 ∧
    ((∃ b, program (10 : Nat) 3 (adds [11, 12]) = some b ∧ b.count = b.BUF_SIZE ∧
      b.head = [11, 12].length ∧
      (∀ i, 1 ≤ i → ∃ b1 v b2, exec (List.replicate (i - 1) Op.next) b = some b1 ∧
        b1.next = some (v, b2) ∧ (10 :: [11, 12])[(i - 1) % ([11, 12].length + 1)]? = some v) ∧
      (∃ v b1 w b2, b.next = some (v, b1) ∧ v = 10 ∧ b1.prev = some (w, b2) ∧
        (10 :: [11, 12])[[11, 12].length]? = some w)) ∧
    (∀ c : RingBuffer Nat, Reachable c →
      (∃ v, c.next = some (v, { c with head := if c.head = c.count - 1 then 0 else c.head + 1 }) ∧
        c.buffer[if c.head = c.count - 1 then 0 else c.head + 1]? = some (some v)) ∧
      (∃ v, c.prev = some (v, { c with head := if c.head = 0 then c.count - 1 else c.head - 1 }) ∧
        c.buffer[if c.head = 0 then c.count - 1 else c.head - 1]? = some (some v)))) :=
  ⟨by decide, by decide, by decide, wrap_around 3 (by decide) (by decide) 10 [11, 12] (by decide)⟩

/-- C8 (single-item buffer): with capacity 1, after the construction with item `a` and any
finite sequence `ops` of calls, the state has `head == 0` and `count == 1`, and a `prev()`
or `next()` call issued then returns the most recently added item (the item of the last
`add` in `ops`, or `a` when there is none) and leaves the state as it is.  As `ops` is any
sequence, this covers every call of a sequence of `prev()`/`next()` calls: each returns `a`
when no `add` was interleaved. -/
theorem single_item_buffer (a : T) (ops : List (Op T)) :
    ∃ b, program a 1 ops = some b ∧ b.BUF_SIZE = 1 ∧ b.head = 0 ∧ b.count = 1 ∧
      b.prev = some (lastAdded a ops, b) ∧ b.next = some (lastAdded a ops, b) ∧
      ((∀ op ∈ ops, op = Op.prev ∨ op = Op.next) →
        b.prev = some (a, b) ∧ b.next = some (a, b)) := by
  have hc : construct a 1 = some (⟨[some a], 0, 1, 1⟩ : RingBuffer T) := by
    rw [construct_eq a 1 (by decide) (by decide)]
    rfl
  have hp := prev_capacity_one (lastAdded a ops)
  have hn := next_capacity_one (lastAdded a ops)
  refine ⟨⟨[some (lastAdded a ops)], 0, 1, 1⟩, ?_, rfl, rfl, rfl, hp, hn, ?_⟩
  · simp only [program, hc, Option.some_bind, exec_capacity_one]
  · intro hall
    have hl : lastAdded a ops = a := by
      apply lastAdded_of_no_add
      intro op hm i e
      rcases hall op hm with h | h <;> rw [h] at e <;> cases e
    rw [hl] at hp hn
    rw [hl]
    exact ⟨hp, hn⟩

/-- C9, counterexample: after `RingBuffer(10, 3); add(11); prev()` the buffer is still
filling (`count == 2 < 3`) with the cursor moved back to slot 0, and `add(12)` overwrites
slot 1 and leaves `count == 2`; so an `add` in the filling phase does not always increase
`count`. -/
theorem filling_add_after_prev_keeps_count :
    program (10 : Nat) 3 [Op.add 11, Op.prev] = some ⟨[some 10, some 11, none], 0, 2, 3⟩ ∧
    (⟨[some 10, some 11, none], 0, 2, 3⟩ : RingBuffer Nat).add 12
      = some ⟨[some 10, some 12, none], 1, 2, 3⟩ ∧
    ¬ (∀ b : RingBuffer Nat, Reachable b → b.count < b.BUF_SIZE →
        ∀ v, ∃ b1, b.add v = some b1 ∧ b1.count = b.count + 1) := by
  refine ⟨by decide, by decide, ?_⟩
  intro h
  obtain ⟨b1, hadd, hcount⟩ := h ⟨[some 10, some 11, none], 0, 2, 3⟩
    ⟨10, 3, [Op.add 11, Op.prev], by decide, by decide, by decide⟩ (by decide) 12
  have e : (⟨[some 10, some 11, none], 0, 2, 3⟩ : RingBuffer Nat).add 12
      = some ⟨[some 10, some 12, none], 1, 2, 3⟩ := by decide
  rw [e] at hadd
  cases hadd
  exact absurd hcount (by decide)

/-- C9, amended: in every reachable state with `count < capacity` whose cursor is on the
last filled slot (`head == count - 1`), and for every item `v`, `add(v)` terminates and
increases `count` by exactly one. -/
theorem filling_add_grows_at_last_slot (b : RingBuffer T) (hb : Reachable b)
    (hfill : b.count < b.BUF_SIZE) (hhead : b.head = b.count - 1) (v : T) :
    ∃ b1, b.add v = some b1 ∧ b1.count = b.count + 1 := by
  have hw := hb.wf
  have h1 := hw.head_lt
  refine ⟨_, add_eq b hw v, ?_⟩
  dsimp only
  rw [if_pos ⟨by omega, hfill⟩]

theorem filling_add_grows_at_last_slot_witness :
    Reachable (⟨[some 10, some 11, none], 1, 2, 3⟩ : RingBuffer Nat) ∧
    (⟨[some 10, some 11, none], 1, 2, 3⟩ : RingBuffer Nat).count < 3 ∧
    (⟨[some 10, some 11, none], 1, 2, 3⟩ : RingBuffer Nat).head = 2 - 1 ∧
    ∃ b1, (⟨[some 10, some 11, none], 1, 2, 3⟩ : RingBuffer Nat).add 12 = some b1 ∧
      b1.count = 2 + 1 :=
  ⟨⟨10, 3, [Op.add 11], by decide, by decide, by decide⟩, by decide, rfl,
    filling_add_grows_at_last_slot _ ⟨10, 3, [Op.add 11], by decide, by decide, by decide⟩
      (by decide) rfl 12⟩

/-- C10, counterexample: `RingBuffer(0, 3); add(1); add(2); prev()` stores the items
`0, 1, 2`, each being the time of its own insertion, in a full buffer with head at slot 1;
`add(3)` then overwrites slot 2, which holds the newest item `2`, while the oldest item `0`
stays in slot 0.  So the item overwritten by `add` in a full reachable state is not always
the one inserted earliest. -/
theorem full_add_after_prev_discards_newest :
    program (0 : Nat) 3 (stamp 1 [Op.add (), Op.add (), Op.prev])
      = some ⟨[some 0, some 1, some 2], 1, 3, 3⟩ ∧
    (⟨[some 0, some 1, some 2], 1, 3, 3⟩ : RingBuffer Nat).add 3
      = some ⟨[some 0, some 1, some 3], 2, 3, 3⟩ ∧
    ¬ (∀ (n : Int) (cmds : List (Op Unit)) (b b1 : RingBuffer Nat) (v u w j : Nat),
        1 ≤ n → n ≤ INT_MAX → program 0 n (stamp 1 cmds) = some b → b.count = b.BUF_SIZE →
        b.add v = some b1 → b.buffer[b1.head]? = some (some u) →
        b.buffer[j]? = some (some w) → u ≤ w) := by
  refine ⟨by decide, by decide, ?_⟩
  intro h
  have := h 3 [Op.add (), Op.add (), Op.prev] ⟨[some 0, some 1, some 2], 1, 3, 3⟩
    ⟨[some 0, some 1, some 3], 2, 3, 3⟩ 3 2 0 0 (by decide) (by decide) (by decide) rfl
    (by decide) (by decide) (by decide)
  exact absurd this (by decide)

/-- C10, amended: for every capacity `n >= 1` and items `x_0 .. x_k` with `k + 1 >= n`
inserted by the construction followed by `k` adds and no `prev()`/`next()`, the buffer is
full, its slots hold exactly the insertions number `k+1-n .. k` (insertion `i` in slot
`i mod n`), and for every item `v` the call `add(v)` overwrites the slot of insertion
`k+1-n`, the earliest-inserted item still stored, leaving all other slots unchanged. -/
theorem add_discards_oldest_after_inserts (n : Int) (h1 : 1 ≤ n) (h2 : n ≤ INT_MAX) (x0 : T)
    (xs : List T) (hfull : n ≤ (xs.length : Int) + 1) (v : T) :
    ∃ b b1, program x0 n (adds xs) = some b ∧ (b.BUF_SIZE : Int) = n ∧
      b.count = b.BUF_SIZE ∧
      (∀ i, xs.length + 1 - b.BUF_SIZE ≤ i → i ≤ xs.length →
        b.buffer[i % b.BUF_SIZE]? = some ((x0 :: xs)[i]?)) ∧
      (∀ j, j < b.count → ∃ i, xs.length + 1 - b.BUF_SIZE ≤ i ∧ i ≤ xs.length ∧
        i % b.BUF_SIZE = j) ∧
      b.add v = some b1 ∧
      b1.head = (xs.length + 1 - b.BUF_SIZE) % b.BUF_SIZE ∧
      b.buffer[b1.head]? = some ((x0 :: xs)[xs.length + 1 - b.BUF_SIZE]?) ∧
      b1.buffer[b1.head]? = some (some v) ∧
      (∀ j : Nat, j ≠ b1.head → b1.buffer[j]? = b.buffer[j]?) := by
  have hc := construct_eq x0 n h1 h2
  have hw0 := wf_construct x0 n h1 h2 _ hc
  obtain ⟨b, he, hw, hs, hh, hcnt, hbuf⟩ := exec_adds x0 xs _ hw0 rfl rfl (by simp)
  dsimp only at hs hh hcnt hbuf
  rw [← hs] at hh hcnt hbuf
  have hpos := hw.size_pos
  have hlen := hw.length_eq
  have hN : b.BUF_SIZE ≤ xs.length + 1 := by omega
  have hfullb : b.count = b.BUF_SIZE := by rw [hcnt]; omega
  have ha := add_eq b hw v
  have hlt := succ_head_mod_lt b hw
  have hhead : (b.head + 1) % b.BUF_SIZE = (xs.length + 1 - b.BUF_SIZE) % b.BUF_SIZE := by
    rw [hh, Nat.mod_add_mod]
    exact Nat.mod_eq_sub_mod hN
  have hstored : ∀ i, xs.length + 1 - b.BUF_SIZE ≤ i → i ≤ xs.length →
      b.buffer[i % b.BUF_SIZE]? = some ((x0 :: xs)[i]?) := by
    intro i hlo hhi
    exact hbuf i hhi (by omega)
  refine ⟨b, _, ?_, ?_, hfullb, hstored, ?_, ha, hhead, ?_, ?_, ?_⟩
  · simp only [program, hc, Option.some_bind, he]
  · rw [hs]
    show ((n.toNat : Nat) : Int) = n
    omega
  · intro j hj
    obtain ⟨i, hi, hilt, hmod, _⟩ :=
      largest_index_in_slot b.BUF_SIZE xs.length j (by omega) (by omega)
    exact ⟨i, by omega, hi, hmod⟩
  · dsimp only
    rw [hhead]
    exact hstored _ (le_refl _) (by omega)
  · exact List.getElem?_set_self (by omega)
  · intro j hj
    exact List.getElem?_set_ne (Ne.symm hj)

theorem add_discards_oldest_after_inserts_witness :
    (1 : Int) ≤ 3 ∧ (3 : Int) ≤ INT_MAX ∧ (3 : Int) ≤ (([11, 12, 13] : List Nat).length : Int) + 1 ∧
    ∃ b b1, program (10 : Nat) 3 (adds [11, 12, 13]) = some b ∧ (b.BUF_SIZE : Int) = 3 ∧
      b.count = b.BUF_SIZE ∧
      (∀ i, [11, 12, 13].length + 1 - b.BUF_SIZE ≤ i → i ≤ [11, 12, 13].length →
        b.buffer[i % b.BUF_SIZE]? = some ((10 :: [11, 12, 13])[i]?)) ∧
      (∀ j, j < b.count → ∃ i, [11, 12, 13].length + 1 - b.BUF_SIZE ≤ i ∧
        i ≤ [11, 12, 13].length ∧ i % b.BUF_SIZE = j) ∧
      b.add 14 = some b1 ∧
      b1.head = ([11, 12, 13].length + 1 - b.BUF_SIZE) % b.BUF_SIZE ∧
      b.buffer[b1.head]? = some ((10 :: [11, 12, 13])[[11, 12, 13].length + 1 - b.BUF_SIZE]?) ∧
      b1.buffer[b1.head]? = some (some 14) ∧
      (∀ j : Nat, j ≠ b1.head → b1.buffer[j]? = b.buffer[j]?) :=
  ⟨by decide, by decide, by decide,
    add_discards_oldest_after_inserts 3 (by decide) (by decide) 10 [11, 12, 13] (by decide) 14⟩

/-- C11 (count never shrinks, full is permanent): in every reachable state every single
operation (`add`, `prev`, `next`, `cur`, `size`, `isEmpty`) terminates with a `count` that
is at least the `count` before it; consequently, once `count == capacity` holds, it holds
after every further sequence of operations. -/
theorem count_never_shrinks (b : RingBuffer T) (hb : Reachable b) :
    (∀ op : Op T, ∃ b1, step op b = some b1 ∧ b.count ≤ b1.count) ∧
    (∀ ops : List (Op T), ∃ b1, exec ops b = some b1 ∧ b.count ≤ b1.count) ∧
    (b.count = b.BUF_SIZE →
      ∀ ops : List (Op T), ∃ b1, exec ops b = some b1 ∧ b1.count = b1.BUF_SIZE) := by
  have hw := hb.wf
  refine ⟨?_, ?_, ?_⟩
  · intro op
    obtain ⟨b1, hs, _, _, hle⟩ := step_count_le op b hw
    exact ⟨b1, hs, hle⟩
  · intro ops
    obtain ⟨b1, he, _, _, hle⟩ := exec_count_le ops b hw
    exact ⟨b1, he, hle⟩
  · intro hfull ops
    obtain ⟨b1, he, hw1, hc, hle⟩ := exec_count_le ops b hw
    have := hw1.count_le
    exact ⟨b1, he, by omega⟩

theorem count_never_shrinks_witness :
    Reachable (⟨[some 7, some 8, some 9], 1, 3, 3⟩ : RingBuffer Nat) ∧
    (∀ op : Op Nat, ∃ b1, step op (⟨[some 7, some 8, some 9], 1, 3, 3⟩ : RingBuffer Nat)
        = some b1 ∧ 3 ≤ b1.count) ∧
    (∀ ops : List (Op Nat), ∃ b1,
      exec ops (⟨[some 7, some 8, some 9], 1, 3, 3⟩ : RingBuffer Nat) = some b1 ∧
        3 ≤ b1.count) ∧
    ((3 : Nat) = 3 →
      ∀ ops : List (Op Nat), ∃ b1,
        exec ops (⟨[some 7, some 8, some 9], 1, 3, 3⟩ : RingBuffer Nat) = some b1 ∧
          b1.count = b1.BUF_SIZE) :=
  ⟨reachable_example, count_never_shrinks _ reachable_example⟩

/-- C12 (size reports the fixed capacity): for every capacity `n >= 1` and every sequence
of operations after the construction, `size()` returns `n`, the capacity given to the
constructor, and leaves the state (head, count and storage) unchanged. -/
theorem size_reports_capacity (x : T) (n : Int) (h1 : 1 ≤ n) (h2 : n ≤ INT_MAX)
    (ops : List (Op T)) :
    ∃ b, program x n ops = some b ∧ b.size = n ∧ step Op.size b = some b := by
  obtain ⟨b, hp, hw, hs⟩ := program_defined x n h1 h2 ops
  have hlt := hw.size_lt
  refine ⟨b, hp, ?_, rfl⟩
  unfold size
  rw [if_pos hlt, hs]
  omega

theorem size_reports_capacity_witness :
    (1 : Int) ≤ 3 ∧ (3 : Int) ≤ INT_MAX ∧
    ∃ b, program (7 : Nat) 3 [Op.add 8, Op.prev, Op.add 9, Op.size, Op.add 1] = some b ∧
      b.size = 3 ∧ step Op.size b = some b :=
  ⟨by decide, by decide, size_reports_capacity 7 3 (by decide) (by decide) _⟩

/-- C13, evaluation of the code: directly after `RingBuffer(7, 3)` the buffer holds one item
and `isEmpty()` returns `true`; in general `isEmpty()` returns `true` exactly when
`count > 0`, so it does not return `true` exactly for the empty buffer as its header
comment says. -/
theorem isEmpty_true_after_construction :
    construct (7 : Nat) 3 = some ⟨[some 7, none, none], 0, 1, 3⟩ ∧
    (⟨[some 7, none, none], 0, 1, 3⟩ : RingBuffer Nat).isEmpty = true ∧
    (∀ b : RingBuffer Nat, b.isEmpty = true ↔ 0 < b.count) ∧
    ¬ (∀ b : RingBuffer Nat, b.isEmpty = true ↔ b.count = 0) := by
  refine ⟨by decide, by decide, ?_, ?_⟩
  · intro b
    simp [isEmpty]
  · intro h
    have := (h ⟨[some 7, none, none], 0, 1, 3⟩).1 (by decide)
    exact absurd this (by decide)

/-- C14 (the empty-buffer condition is unreachable): for every capacity `n >= 1` and every
sequence of operations after the construction, the calls terminate in a state with
`count >= 1`; there the guard `count > 0` of `cur()` succeeds and `cur()` returns
`buffer[head]`, and the unsigned `count - 1` computed by `prev()`/`next()` does not wrap:
it is the integer `count - 1`. -/
theorem empty_buffer_unreachable (x : T) (n : Int) (h1 : 1 ≤ n) (h2 : n ≤ INT_MAX)
    (ops : List (Op T)) :
    ∃ b, program x n ops = some b ∧ 1 ≤ b.count ∧
      (∃ v, b.cur = some v ∧ b.buffer[b.head]? = some (some v)) ∧
      (((b.count + UINT_MODULUS - 1) % UINT_MODULUS : Nat) : Int) = (b.count : Int) - 1 ∧
      (∃ v b1, b.prev = some (v, b1)) ∧ (∃ v b1, b.next = some (v, b1)) := by
  obtain ⟨b, hp, hw, hs⟩ := program_defined x n h1 h2 ops
  have hhead := hw.head_lt
  have hcle := hw.count_le
  have hlt := hw.size_lt
  obtain ⟨v, hv, hc⟩ := cur_eq b hw
  obtain ⟨w, _, hpv⟩ := prev_eq b hw
  obtain ⟨u, _, hnx⟩ := next_eq b hw
  refine ⟨b, hp, by omega, ⟨v, hc, hv⟩, ?_, ⟨w, _, hpv⟩, ⟨u, _, hnx⟩⟩
  unfold UINT_MODULUS
  omega

theorem empty_buffer_unreachable_witness :
    (1 : Int) ≤ 3 ∧ (3 : Int) ≤ INT_MAX ∧
    ∃ b, program (7 : Nat) 3 [Op.add 8, Op.prev, Op.prev, Op.next, Op.add 9] = some b ∧
      1 ≤ b.count ∧
      (∃ v, b.cur = some v ∧ b.buffer[b.head]? = some (some v)) ∧
      (((b.count + UINT_MODULUS - 1) % UINT_MODULUS : Nat) : Int) = (b.count : Int) - 1 ∧
      (∃ v b1, b.prev = some (v, b1)) ∧ (∃ v b1, b.next = some (v, b1)) :=
  ⟨by decide, by decide, empty_buffer_unreachable 7 3 (by decide) (by decide) _⟩

/-- C15, counterexample: `RingBuffer(0, 3); add(1); add(2); add(3)` (every item is the time
of its own insertion, no `prev()`/`next()`) leaves the storage `[3, 1, 2]` with head 0, and
`operator<<` lists `data[1] = 3`, `data[2] = 1`, `data[3] = 2`: the newest item comes first,
so the listing is not ordered from the oldest inserted to the newest inserted item. -/
theorem stream_after_wrap_not_in_insertion_order :
    program (0 : Nat) 3 (stamp 1 [Op.add (), Op.add (), Op.add ()])
      = some ⟨[some 3, some 1, some 2], 0, 3, 3⟩ ∧
    operator_lshift (⟨[some 3, some 1, some 2], 0, 3, 3⟩ : RingBuffer Nat)
      = some ⟨3, 3, 0, [(1, 3), (2, 1), (3, 2)]⟩ ∧
    ¬ (∀ (n : Int) (cmds : List (Op Unit)) (b : RingBuffer Nat) (r : Report Nat),
        1 ≤ n → n ≤ INT_MAX → program 0 n (stamp 1 cmds) = some b →
        operator_lshift b = some r → (r.data.map Prod.snd).Pairwise (fun u w => u < w)) := by
  refine ⟨by decide, by decide, ?_⟩
  intro h
  have := h 3 [Op.add (), Op.add (), Op.add ()] ⟨[some 3, some 1, some 2], 0, 3, 3⟩
    ⟨3, 3, 0, [(1, 3), (2, 1), (3, 2)]⟩ (by decide) (by decide) (by decide) (by decide)
  exact absurd this (by decide)

/-- C15, amended: in every reachable state the stream representation reports the capacity,
`count` and `head` and lists exactly `count` entries, labelled `1 .. count`, the entry
labelled `k+1` being the item stored in slot `k` (storage order).  When the items
`x_0 .. x_k` were inserted by the construction and adds only and `k + 1 <= capacity`, the
listed items are `x_0, ..., x_k`, i.e. insertion order from oldest to newest, the newest
being the item at head. -/
theorem stream_lists_slots_in_storage_order (b : RingBuffer T) (hb : Reachable b)
    (n : Int) (h1 : 1 ≤ n) (h2 : n ≤ INT_MAX) (x0 : T) (xs : List T)
    (hlen : (xs.length : Int) + 1 ≤ n) :
    (∃ r, operator_lshift b = some r ∧
      r.BUF_SIZE = b.BUF_SIZE ∧ r.count = b.count ∧ r.head = b.head ∧
      r.data.length = b.count ∧
      ∀ k, k < b.count → ∃ v, b.buffer[k]? = some (some v) ∧ r.data[k]? = some (k + 1, v)) ∧
    (∃ c r, program x0 n (adds xs) = some c ∧ operator_lshift c = some r ∧
      r.data.map Prod.snd = x0 :: xs ∧ c.head = xs.length ∧ c.cur = (x0 :: xs)[xs.length]?) := by
  constructor
  · obtain ⟨d, hd, hl, hk⟩ := operator_lshift_eq b hb.wf
    exact ⟨_, hd, rfl, rfl, rfl, hl, hk⟩
  · have hc := construct_eq x0 n h1 h2
    have hw0 := wf_construct x0 n h1 h2 _ hc
    obtain ⟨c, he, hw, hs, hh, hcnt, hbuf⟩ := exec_adds x0 xs _ hw0 rfl rfl (by simp)
    dsimp only at hs hh hcnt hbuf
    have hN : xs.length + 1 ≤ n.toNat := by omega
    rw [Nat.mod_eq_of_lt (by omega)] at hh
    rw [Nat.min_eq_left hN] at hcnt
    have hslot : ∀ i, i < xs.length + 1 → c.buffer[i]? = some ((x0 :: xs)[i]?) := by
      intro i hi
      have := hbuf i (by omega) (by omega)
      rwa [Nat.mod_eq_of_lt (by omega)] at this
    obtain ⟨d, hd, hl, hk⟩ := operator_lshift_eq c hw
    rw [hcnt] at hl hk
    refine ⟨c, _, ?_, hd, ?_, hh, ?_⟩
    · simp only [program, hc, Option.some_bind, he]
    · apply List.ext_getElem?
      intro i
      show (d.map Prod.snd)[i]? = (x0 :: xs)[i]?
      rw [List.getElem?_map]
      by_cases hi : i < xs.length + 1
      · obtain ⟨v, hv1, hv2⟩ := hk i hi
        rw [hslot i hi] at hv1
        rw [hv2, Option.some.inj hv1]
        rfl
      · rw [List.getElem?_eq_none (by omega), List.getElem?_eq_none (by simp; omega)]
        rfl
    · obtain ⟨w, hw2, hcur⟩ := cur_eq c hw
      rw [hcur]
      rw [hh, hslot _ (by omega)] at hw2
      exact (Option.some.inj hw2).symm

theorem stream_lists_slots_in_storage_order_witness :
    Reachable (⟨[some 7, some 8, some 9], 1, 3, 3⟩ : RingBuffer Nat) ∧
    (1 : Int) ≤ 3 ∧ (3 : Int) ≤ INT_MAX ∧ (([11, 12] : List Nat).length : Int) + 1 ≤ 3 ∧
    (∃ r, operator_lshift (⟨[some 7, some 8, some 9], 1, 3, 3⟩ : RingBuffer Nat) = some r ∧
      r.BUF_SIZE = 3 ∧ r.count = 3 ∧ r.head = 1 ∧ r.data.length = 3 ∧
      ∀ k, k < 3 → ∃ v, [some 7, some 8, some 9][k]? = some (some v) ∧
        r.data[k]? = some (k + 1, v)) ∧
    (∃ c r, program (10 : Nat) 3 (adds [11, 12]) = some c ∧ operator_lshift c = some r ∧
      r.data.map Prod.snd = 10 :: [11, 12] ∧ c.head = [11, 12].length ∧
      c.cur = (10 :: [11, 12])[[11, 12].length]?) :=
  ⟨reachable_example, by decide, by decide, by decide,
    stream_lists_slots_in_storage_order _ reachable_example 3 (by decide) (by decide) 10
      [11, 12] (by decide)⟩

/-- C16 (frame of the read operations): in every reachable state `cur()` returns
`buffer[head]` and changes nothing; `prev()` and `next()` change `head` only, leaving
`count`, the capacity and every slot of the storage unchanged; an operation that modifies
the storage or `count` is an `add`. -/
theorem read_operations_frame (b : RingBuffer T) (hb : Reachable b) :
    (∃ v, b.cur = some v ∧ b.buffer[b.head]? = some (some v) ∧ step Op.cur b = some b) ∧
    (∃ v b1, b.prev = some (v, b1) ∧ b1.buffer = b.buffer ∧ b1.count = b.count ∧
      b1.BUF_SIZE = b.BUF_SIZE) ∧
    (∃ v b1, b.next = some (v, b1) ∧ b1.buffer = b.buffer ∧ b1.count = b.count ∧
      b1.BUF_SIZE = b.BUF_SIZE) ∧
    (∀ (op : Op T) (b1 : RingBuffer T), step op b = some b1 →
      (b1.buffer ≠ b.buffer ∨ b1.count ≠ b.count) → ∃ i, op = Op.add i) := by
  have hw := hb.wf
  obtain ⟨v, hv, hc⟩ := cur_eq b hw
  obtain ⟨w, _, hp⟩ := prev_eq b hw
  obtain ⟨u, _, hn⟩ := next_eq b hw
  refine ⟨⟨v, hc, hv, ?_⟩, ⟨w, _, hp, rfl, rfl, rfl⟩, ⟨u, _, hn, rfl, rfl, rfl⟩, ?_⟩
  · simp only [step, hc, Option.map_some']
  · intro op b1 hs hne
    by_contra hno
    have hop : ∀ i, op ≠ Op.add i := fun i e => hno ⟨i, e⟩
    obtain ⟨e1, e2, _⟩ := step_frame op hop b b1 hs
    rcases hne with h | h
    · exact h e1
    · exact h e2

theorem read_operations_frame_witness :
    Reachable (⟨[some 7, some 8, some 9], 1, 3, 3⟩ : RingBuffer Nat) ∧
    (∃ v, (⟨[some 7, some 8, some 9], 1, 3, 3⟩ : RingBuffer Nat).cur = some v ∧
      [some 7, some 8, some 9][1]? = some (some v) ∧
      step Op.cur (⟨[some 7, some 8, some 9], 1, 3, 3⟩ : RingBuffer Nat)
        = some ⟨[some 7, some 8, some 9], 1, 3, 3⟩) ∧
    (∃ v b1, (⟨[some 7, some 8, some 9], 1, 3, 3⟩ : RingBuffer Nat).prev = some (v, b1) ∧
      b1.buffer = [some 7, some 8, some 9] ∧ b1.count = 3 ∧ b1.BUF_SIZE = 3) ∧
    (∃ v b1, (⟨[some 7, some 8, some 9], 1, 3, 3⟩ : RingBuffer Nat).next = some (v, b1) ∧
      b1.buffer = [some 7, some 8, some 9] ∧ b1.count = 3 ∧ b1.BUF_SIZE = 3) ∧
    (∀ (op : Op Nat) (b1 : RingBuffer Nat),
      step op (⟨[some 7, some 8, some 9], 1, 3, 3⟩ : RingBuffer Nat) = some b1 →
      (b1.buffer ≠ [some 7, some 8, some 9] ∨ b1.count ≠ 3) → ∃ i, op = Op.add i) :=
  ⟨reachable_example, read_operations_frame _ reachable_example⟩

/-- C17 (representation invariant): in every state reached from a construction with
capacity `n >= 1` by any sequence of calls, `head < count` and the assigned slots are
exactly the slots `[0, count)`; hence `next()` yields a head below `count`, never the
capacity, and `cur()`, `prev()` and `next()` each return an item that was passed to the
constructor or to an earlier `add` (no unassigned slot is read). -/
theorem representation_invariant (x : T) (n : Int) (h1 : 1 ≤ n) (h2 : n ≤ INT_MAX)
    (ops : List (Op T)) :
    ∃ b, program x n ops = some b ∧ b.head < b.count ∧
      (∀ j : Nat, (∃ v, b.buffer[j]? = some (some v)) ↔ j < b.count) ∧
      (∃ v, b.cur = some v ∧ v ∈ x :: addedItems ops) ∧
      (∃ v b1, b.prev = some (v, b1) ∧ v ∈ x :: addedItems ops) ∧
      (∃ v b1, b.next = some (v, b1) ∧ b1.head < b1.count ∧ b1.head ≠ b.BUF_SIZE ∧
        v ∈ x :: addedItems ops) := by
  obtain ⟨b, hp, hw, hs⟩ := program_defined x n h1 h2 ops
  have hst := program_stored x n h1 h2 ops b hp
  have hcle := hw.count_le
  have hlen := hw.length_eq
  obtain ⟨v, hv, hc⟩ := cur_eq b hw
  obtain ⟨w, hwv, hpv⟩ := prev_eq b hw
  obtain ⟨u, huv, hnx⟩ := next_eq b hw
  have hw1 := wf_next b hw u _ hnx
  have hh1 := hw1.head_lt
  have hc1 := hw1.count_le
  refine ⟨b, hp, hw.head_lt, ?_, ⟨v, hc, hst _ v hv⟩, ⟨w, _, hpv, hst _ w hwv⟩,
    ⟨u, _, hnx, hh1, ?_, hst _ u huv⟩⟩
  · intro j
    constructor
    · rintro ⟨v1, hv1⟩
      by_contra hge
      by_cases hj : j < b.BUF_SIZE
      · rw [hw.unwritten j (by omega) hj] at hv1
        cases Option.some.inj hv1
      · rw [List.getElem?_eq_none (by omega)] at hv1
        cases hv1
    · exact hw.written j
  · dsimp only at hh1 hc1 ⊢
    omega

theorem representation_invariant_witness :
    (1 : Int) ≤ 3 ∧ (3 : Int) ≤ INT_MAX ∧
    ∃ b, program (7 : Nat) 3 [Op.add 8, Op.prev, Op.add 9, Op.next] = some b ∧
      b.head < b.count ∧
      (∀ j : Nat, (∃ v, b.buffer[j]? = some (some v)) ↔ j < b.count) ∧
      (∃ v, b.cur = some v ∧ v ∈ 7 :: addedItems [Op.add 8, Op.prev, Op.add 9, Op.next]) ∧
      (∃ v b1, b.prev = some (v, b1) ∧
        v ∈ 7 :: addedItems [Op.add 8, Op.prev, Op.add 9, Op.next]) ∧
      (∃ v b1, b.next = some (v, b1) ∧ b1.head < b1.count ∧ b1.head ≠ b.BUF_SIZE ∧
        v ∈ 7 :: addedItems [Op.add 8, Op.prev, Op.add 9, Op.next]) :=
  ⟨by decide, by decide, representation_invariant 7 3 (by decide) (by decide) _⟩

/-- C18 (exact rule for the growth of count): in every reachable state and for every item
`v`, `add(v)` terminates and increases `count` by exactly one if and only if, before the
call, `head == count - 1` and `count < capacity`; in every other reachable state `add(v)`
leaves `count` unchanged and overwrites a slot below `count`, which was assigned before. -/
theorem count_growth_rule (b : RingBuffer T) (hb : Reachable b) (v : T) :
    ∃ b1, b.add v = some b1 ∧
      (b1.count = b.count + 1 ↔ (b.head = b.count - 1 ∧ b.count < b.BUF_SIZE)) ∧
      (¬ (b.head = b.count - 1 ∧ b.count < b.BUF_SIZE) →
        b1.count = b.count ∧ b1.head < b.count ∧
          (∃ w, b.buffer[b1.head]? = some (some w)) ∧
          b1.buffer[b1.head]? = some (some v)) := by
  have hw := hb.wf
  have h1 := hw.head_lt
  have h2 := hw.count_le
  have hlen := hw.length_eq
  have hm := succ_head_mod b hw
  have hlt := succ_head_mod_lt b hw
  refine ⟨_, add_eq b hw v, ?_, ?_⟩
  · dsimp only
    constructor
    · intro e
      split at e
      · next hg => exact ⟨by omega, hg.2⟩
      · omega
    · intro hg
      rw [if_pos ⟨by omega, hg.2⟩]
  · intro hg
    dsimp only
    have hhead : (b.head + 1) % b.BUF_SIZE < b.count := by
      rw [hm]
      split <;> omega
    refine ⟨?_, hhead, hw.written _ hhead, List.getElem?_set_self (by omega)⟩
    rw [if_neg (fun hc => hg ⟨by omega, hc.2⟩)]

theorem count_growth_rule_witness :
    Reachable (⟨[some 7, some 8, some 9], 1, 3, 3⟩ : RingBuffer Nat) ∧
    ∃ b1, (⟨[some 7, some 8, some 9], 1, 3, 3⟩ : RingBuffer Nat).add 5 = some b1 ∧
      (b1.count = 3 + 1 ↔ ((1 : Nat) = 3 - 1 ∧ (3 : Nat) < 3)) ∧
      (¬ ((1 : Nat) = 3 - 1 ∧ (3 : Nat) < 3) →
        b1.count = 3 ∧ b1.head < 3 ∧
          (∃ w, [some 7, some 8, some 9][b1.head]? = some (some w)) ∧
          b1.buffer[b1.head]? = some (some 5)) :=
  ⟨reachable_example, count_growth_rule _ reachable_example 5⟩

/-- C19 (prev and next are mutually inverse in every reachable state, full or not): the
state after `prev()` then `next()` is the original state, and so is the state after
`next()` then `prev()`.  This needs `head < count`: in the unreachable state with
`head == count == 2`, `prev()` then `next()` ends with head 0. -/
theorem prev_next_inverse_everywhere (b : RingBuffer T) (hb : Reachable b) :
    (∃ v b1 w, b.prev = some (v, b1) ∧ b1.next = some (w, b)) ∧
    (∃ v b1 w, b.next = some (v, b1) ∧ b1.prev = some (w, b)) ∧
    exec [Op.prev, Op.next] b = some b ∧
    exec [Op.next, Op.prev] b = some b ∧
    exec [Op.prev, Op.next] (⟨[some 1, some 2, some 3], 2, 2, 3⟩ : RingBuffer Nat)
      = some ⟨[some 1, some 2, some 3], 0, 2, 3⟩ := by
  have hw := hb.wf
  obtain ⟨v, b1, w, hp, _, hn⟩ := prev_next_cancel b hw
  obtain ⟨v2, b2, w2, hn2, _, hp2⟩ := next_prev_cancel b hw
  exact ⟨⟨v, b1, w, hp, hn⟩, ⟨v2, b2, w2, hn2, hp2⟩, exec_prevs_nexts 1 b hw,
    exec_nexts_prevs 1 b hw, by decide⟩

theorem prev_next_inverse_everywhere_witness :
    Reachable (⟨[some 10, some 11, none], 1, 2, 3⟩ : RingBuffer Nat) ∧
    (∃ v b1 w, (⟨[some 10, some 11, none], 1, 2, 3⟩ : RingBuffer Nat).prev = some (v, b1) ∧
      b1.next = some (w, ⟨[some 10, some 11, none], 1, 2, 3⟩)) ∧
    (∃ v b1 w, (⟨[some 10, some 11, none], 1, 2, 3⟩ : RingBuffer Nat).next = some (v, b1) ∧
      b1.prev = some (w, ⟨[some 10, some 11, none], 1, 2, 3⟩)) ∧
    exec [Op.prev, Op.next] (⟨[some 10, some 11, none], 1, 2, 3⟩ : RingBuffer Nat)
      = some ⟨[some 10, some 11, none], 1, 2, 3⟩ ∧
    exec [Op.next, Op.prev] (⟨[some 10, some 11, none], 1, 2, 3⟩ : RingBuffer Nat)
      = some ⟨[some 10, some 11, none], 1, 2, 3⟩ ∧
    exec [Op.prev, Op.next] (⟨[some 1, some 2, some 3], 2, 2, 3⟩ : RingBuffer Nat)
      = some ⟨[some 1, some 2, some 3], 0, 2, 3⟩ :=
  ⟨⟨10, 3, [Op.add 11], by decide, by decide, by decide⟩,
    prev_next_inverse_everywhere _ ⟨10, 3, [Op.add 11], by decide, by decide, by decide⟩⟩

/-- C20 (navigation cycles through exactly the `count` filled slots): in every reachable
state, `count` consecutive `next()` calls, and likewise `count` consecutive `prev()` calls,
bring `head` back to its starting value; the heads reached by fewer than `count` calls are
pairwise distinct and cover every slot in `[0, count)`; and no smaller positive number of
calls returns `head` to its start. -/
theorem navigation_cycles (b : RingBuffer T) (hb : Reachable b) :
    CyclesThrough Op.next b ∧ CyclesThrough Op.prev b :=
  ⟨cycles_next b hb.wf, cycles_prev b hb.wf⟩

theorem navigation_cycles_witness :
    Reachable (⟨[some 10, some 11, none], 1, 2, 3⟩ : RingBuffer Nat) ∧
    CyclesThrough Op.next (⟨[some 10, some 11, none], 1, 2, 3⟩ : RingBuffer Nat) ∧
    CyclesThrough Op.prev (⟨[some 10, some 11, none], 1, 2, 3⟩ : RingBuffer Nat) :=
  ⟨⟨10, 3, [Op.add 11], by decide, by decide, by decide⟩,
    navigation_cycles _ ⟨10, 3, [Op.add 11], by decide, by decide, by decide⟩⟩

end RingBuffer
